import Mathlib

/-!
Verification of the go-dasl repository: the DRISL canonical CBOR codec,
the DASL CID component, the MASL validity predicate and the RASL URL parser.

Machine bytes are modelled as `Fin 256`; byte strings as `List (Fin 256)`.
The CID, MASL and RASL definitions are translated from the repository's Go
source.  The cbor/v2 codec engine that `drisl.Marshal` / `drisl.Unmarshal`
delegate to is not part of the repository snapshot, so the canonical
encoder and strict decoder are modelled from the specification's rules
(spec sections 4.1 and 4.2); definitions modelled this way carry a
`Modelled from the spec:` doc comment.
-/

namespace GoDasl

/-- A machine byte. -/
abbrev Byte := Fin 256

/-- Truncate a natural number to a byte, as Go's byte conversions do. -/
def byte (n : Nat) : Byte := ⟨n % 256, Nat.mod_lt _ (by norm_num)⟩

/-- Big-endian 2-byte serialization of a 16-bit argument. -/
def be2 (n : Nat) : List Byte := [byte (n / 256), byte n]

/-- Big-endian 4-byte serialization of a 32-bit argument. -/
def be4 (n : Nat) : List Byte :=
  [byte (n / 2 ^ 24), byte (n / 2 ^ 16), byte (n / 256), byte n]

/-- Big-endian 8-byte serialization of a 64-bit argument. -/
def be8 (n : Nat) : List Byte :=
  [byte (n / 2 ^ 56), byte (n / 2 ^ 48), byte (n / 2 ^ 40), byte (n / 2 ^ 32),
   byte (n / 2 ^ 24), byte (n / 2 ^ 16), byte (n / 256), byte n]

/-- Modelled from the spec: CBOR head encoding using the shortest form that
fits the argument (1, 2, 3, 5, or 9 bytes) — spec section 4.1. -/
def encHead (major arg : Nat) : List Byte :=
  if arg < 24 then [byte (32 * major + arg)]
  else if arg < 256 then [byte (32 * major + 24), byte arg]
  else if arg < 65536 then byte (32 * major + 25) :: be2 arg
  else if arg < 4294967296 then byte (32 * major + 26) :: be4 arg
  else byte (32 * major + 27) :: be8 arg

/-- Modelled from the spec: reading a CBOR head argument given the minor bits,
enforcing shortest-form heads (`EnforceIntPrefEnc`, spec section 4.2:
non-minimal heads fail). -/
def readArg (minor : Nat) (bs : List Byte) : Option (Nat × List Byte) :=
  if minor < 24 then some (minor, bs)
  else if minor = 24 then
    match bs with
    | b :: r => if 24 ≤ b.val then some (b.val, r) else none
    | [] => none
  else if minor = 25 then
    match bs with
    | b1 :: b2 :: r =>
      let v := 256 * b1.val + b2.val
      if 256 ≤ v then some (v, r) else none
    | _ => none
  else if minor = 26 then
    match bs with
    | b1 :: b2 :: b3 :: b4 :: r =>
      let v := 2 ^ 24 * b1.val + 2 ^ 16 * b2.val + 256 * b3.val + b4.val
      if 65536 ≤ v then some (v, r) else none
    | _ => none
  else if minor = 27 then
    match bs with
    | b1 :: b2 :: b3 :: b4 :: b5 :: b6 :: b7 :: b8 :: r =>
      let v := 2 ^ 56 * b1.val + 2 ^ 48 * b2.val + 2 ^ 40 * b3.val + 2 ^ 32 * b4.val +
        2 ^ 24 * b5.val + 2 ^ 16 * b6.val + 256 * b7.val + b8.val
      if 4294967296 ≤ v then some (v, r) else none
    | _ => none
  else none

/-- UTF-8 validity of a byte sequence, per RFC 3629 (what Go's
`utf8.Valid` enforces: no surrogates, no overlong forms, max U+10FFFF). -/
def validUtf8 : List Byte → Bool
  | [] => true
  | b :: rest =>
    let n := b.val
    if n < 0x80 then validUtf8 rest
    else if n < 0xC2 then false
    else if n < 0xE0 then
      match rest with
      | c1 :: r => (0x80 ≤ c1.val && c1.val ≤ 0xBF) && validUtf8 r
      | [] => false
    else if n = 0xE0 then
      match rest with
      | c1 :: c2 :: r =>
        (0xA0 ≤ c1.val && c1.val ≤ 0xBF) && (0x80 ≤ c2.val && c2.val ≤ 0xBF) && validUtf8 r
      | _ => false
    else if n < 0xED then
      match rest with
      | c1 :: c2 :: r =>
        (0x80 ≤ c1.val && c1.val ≤ 0xBF) && (0x80 ≤ c2.val && c2.val ≤ 0xBF) && validUtf8 r
      | _ => false
    else if n = 0xED then
      match rest with
      | c1 :: c2 :: r =>
        (0x80 ≤ c1.val && c1.val ≤ 0x9F) && (0x80 ≤ c2.val && c2.val ≤ 0xBF) && validUtf8 r
      | _ => false
    else if n < 0xF0 then
      match rest with
      | c1 :: c2 :: r =>
        (0x80 ≤ c1.val && c1.val ≤ 0xBF) && (0x80 ≤ c2.val && c2.val ≤ 0xBF) && validUtf8 r
      | _ => false
    else if n = 0xF0 then
      match rest with
      | c1 :: c2 :: c3 :: r =>
        (0x90 ≤ c1.val && c1.val ≤ 0xBF) && (0x80 ≤ c2.val && c2.val ≤ 0xBF) &&
          (0x80 ≤ c3.val && c3.val ≤ 0xBF) && validUtf8 r
      | _ => false
    else if n < 0xF4 then
      match rest with
      | c1 :: c2 :: c3 :: r =>
        (0x80 ≤ c1.val && c1.val ≤ 0xBF) && (0x80 ≤ c2.val && c2.val ≤ 0xBF) &&
          (0x80 ≤ c3.val && c3.val ≤ 0xBF) && validUtf8 r
      | _ => false
    else if n = 0xF4 then
      match rest with
      | c1 :: c2 :: c3 :: r =>
        (0x80 ≤ c1.val && c1.val ≤ 0x8F) && (0x80 ≤ c2.val && c2.val ≤ 0xBF) &&
          (0x80 ≤ c3.val && c3.val ≤ 0xBF) && validUtf8 r
      | _ => false
    else false

/-- An IEEE 754 binary64 bit pattern is NaN or an infinity iff its exponent
bits are all ones. -/
def floatNanOrInf (bits : Nat) : Bool := (bits / 2 ^ 52) % 2 ^ 11 = 2047

/-! ## The CID component (translated from the cid package source) -/

/-- All DASL CIDs are 36 bytes long: 4 header bytes + 32 hash digest bytes. -/
def CidBinaryLength : Nat := 36

/-- Encoded as a base32 string it is 58 bytes, plus the 'b' prefix. -/
def CidStrLength : Nat := 59

def CidVersion : Nat := 0x01
def CodecRaw : Nat := 0x55
def CodecDrisl : Nat := 0x71
def HashTypeSha256 : Nat := 0x12
def HashTypeBlake3 : Nat := 0x1e

/-- The hash digest length. -/
def HashSize : Nat := 32

/-- `Cid` is a DASL CID; `b` models the backing `[CidBinaryLength]byte`
array (always 36 bytes; the Go zero value is all zeros). -/
structure Cid where
  b : List Byte
  deriving DecidableEq

/-- The Go zero value `cid.Cid{}`: a zero-filled 36-byte array. -/
def zeroCid : Cid := ⟨List.replicate CidBinaryLength (byte 0)⟩

/-- `NewCidFromBytes` creates a new DASL CID from the given bytes,
returning a `ForbiddenCidError` message if it is invalid in any way. -/
def NewCidFromBytes (inb : List Byte) : Except String Cid :=
  if inb.length ≠ CidBinaryLength then .error "invalid length"
  else
    match inb with
    | v :: cdc :: ht :: hs :: _rest =>
      if v.val ≠ CidVersion then .error "invalid version"
      else if cdc.val ≠ CodecRaw ∧ cdc.val ≠ CodecDrisl then .error "invalid codec"
      else if ht.val ≠ HashTypeSha256 ∧ ht.val ≠ HashTypeBlake3 then .error "invalid hash type"
      else if hs.val ≠ HashSize then .error "invalid hash size"
      else .ok ⟨inb⟩
    | _ => .error "invalid length"

/-- Boolean form of `NewCidFromBytes` acceptance. -/
def cidOk (inb : List Byte) : Bool := (NewCidFromBytes inb).toOption.isSome

/-- `Bytes` returns the CID in binary format (a copy of the array). -/
def Cid.Bytes (c : Cid) : List Byte := c.b

/-- `Codec` returns the codec of the CID (`c.b[1]`). -/
def Cid.CodecOf (c : Cid) : Nat := (c.b.getD 1 (byte 0)).val

/-- `HashType` returns the hash type of the CID (`c.b[2]`). -/
def Cid.HashTypeOf (c : Cid) : Nat := (c.b.getD 2 (byte 0)).val

/-- `Digest` returns the hash digest stored in the CID (`c.b[dgIdx:]`,
where `dgIdx = 4`). -/
def Cid.Digest (c : Cid) : List Byte := c.b.drop 4

/-- `Equals` compares the backing arrays. -/
def Cid.Equals (c o : Cid) : Bool := c.b = o.b

/-- `Defined` returns false if this Cid has no data due to being created
with `cid.Cid{}`: the source checks `c.b[0] != 0`. -/
def Cid.Defined (c : Cid) : Bool := (c.b.getD 0 (byte 0)).val ≠ 0

/-- `MarshalCBOR`: errors on an undefined Cid, otherwise returns the fixed
header `d8 2a 58 25 00` followed by the 36 binary CID bytes. -/
def Cid.MarshalCBOR (c : Cid) : Except String (List Byte) :=
  if ¬ c.Defined then .error "go-dasl/cid: will not marshal undefined Cid"
  else .ok (byte 0xd8 :: byte 0x2a :: byte 0x58 :: byte 0x25 :: byte 0x00 :: c.b)

/-! ## The DRISL value universe (spec section 3) -/

/-- Modelled from the spec: the logical value universe of the codec
(spec section 3).  `int` carries an arbitrary-precision integer
(physically constrained at the boundary), `float` carries a binary64 bit
pattern, `text` carries UTF-8 bytes, `map` carries string-keyed pairs
(keys as UTF-8 byte strings), `cid` carries the 36 binary CID bytes. -/
inductive Val where
  | int : Int → Val
  | bool : Bool → Val
  | null : Val
  | float : Nat → Val
  | text : List Byte → Val
  | bytes : List Byte → Val
  | arr : List Val → Val
  | map : List (List Byte × Val) → Val
  | cid : List Byte → Val

/-- The encoded form of a map key: a major-type-3 head plus the key bytes.
Map ordering compares these encoded keys bytewise (DAG-CBOR rule). -/
def encKey (k : List Byte) : List Byte := encHead 3 k.length ++ k

/-- Bytewise lexicographic strict order on byte strings. -/
def bytesLt : List Byte → List Byte → Bool
  | [], [] => false
  | [], _ :: _ => true
  | _ :: _, [] => false
  | a :: as, b :: bs =>
    if a.val < b.val then true
    else if b.val < a.val then false
    else bytesLt as bs

/-- Insert a value-level pair into a list sorted by `bytesLt` on encoded
keys. -/
def insertPair (p : List Byte × Val) : List (List Byte × Val) → List (List Byte × Val)
  | [] => [p]
  | q :: qs =>
    if bytesLt (encKey p.1) (encKey q.1) then p :: q :: qs
    else q :: insertPair p qs

/-- Sort value-level map pairs ascending by bytewise comparison of encoded
keys (the canonical DAG-CBOR map ordering). -/
def sortPairs : List (List Byte × Val) → List (List Byte × Val)
  | [] => []
  | p :: ps => insertPair p (sortPairs ps)

theorem insertPair_perm (p : List Byte × Val) (ps : List (List Byte × Val)) :
    List.Perm (insertPair p ps) (p :: ps) := by
  induction ps with
  | nil => simp [insertPair]
  | cons q qs ih =>
    simp only [insertPair]
    split
    · exact List.Perm.refl _
    · exact ((ih.cons q).trans (List.Perm.swap p q qs))

theorem sortPairs_perm (ps : List (List Byte × Val)) :
    List.Perm (sortPairs ps) ps := by
  induction ps with
  | nil => simp [sortPairs]
  | cons p ps ih =>
    exact (insertPair_perm p (sortPairs ps)).trans (ih.cons p)

/-- Insert an encoded pair (encoded key, encoded value) into a list sorted
by `bytesLt` on the encoded keys.  This is the byte-level sorting the
encoder performs on already-encoded map entries. -/
def insertEnc (p : List Byte × List Byte) :
    List (List Byte × List Byte) → List (List Byte × List Byte)
  | [] => [p]
  | q :: qs =>
    if bytesLt p.1 q.1 then p :: q :: qs
    else q :: insertEnc p qs

/-- Sort encoded map entries ascending by bytewise comparison of the
encoded keys (`SortBytewiseLexical`). -/
def sortEnc : List (List Byte × List Byte) → List (List Byte × List Byte)
  | [] => []
  | p :: ps => insertEnc p (sortEnc ps)

/-- Concatenate encoded map entries into the wire form of a map body. -/
def flattenPairs : List (List Byte × List Byte) → List Byte
  | [] => []
  | q :: qs => q.1 ++ q.2 ++ flattenPairs qs

/-- Strictly-ascending check for a list of encoded keys, continuing an
optional previous encoded key. -/
def ascFrom : Option (List Byte) → List (List Byte) → Bool
  | _, [] => true
  | none, k :: ks => ascFrom (some k) ks
  | some p, k :: ks => bytesLt p k && ascFrom (some k) ks

mutual
/-- The type-adapter normal form of a value: maps are recursively sorted by
encoded-key order.  Two values represent the same logical (Go) value iff
their normal forms coincide, because Go maps carry no order. -/
def canon : Val → Val
  | .int n => .int n
  | .bool b => .bool b
  | .null => .null
  | .float f => .float f
  | .text s => .text s
  | .bytes s => .bytes s
  | .cid c => .cid c
  | .arr xs => .arr (canonList xs)
  | .map ps => .map (sortPairs (canonPairs ps))
termination_by structural v => v

/-- `canon` for each element of an array. -/
def canonList : List Val → List Val
  | [] => []
  | x :: xs => canon x :: canonList xs
termination_by structural xs => xs

/-- `canon` for each value of a map, keys unchanged. -/
def canonPairs : List (List Byte × Val) → List (List Byte × Val)
  | [] => []
  | (k, v) :: ps => (k, canon v) :: canonPairs ps
termination_by structural ps => ps
end

/-- The type adapter's equivalence on decoded values: equality of logical
values, i.e. equality after map-order normalization.  Integer widths are
already identified because `Val.int` carries a mathematical integer. -/
def equivVal (x y : Val) : Prop := canon x = canon y

/-! ## The canonical encoder (modelled from spec section 4.1) -/

/-- The resolved configuration of an encoding mode.  The `Time` option only
affects `time.Time` values, which are outside the modelled value universe,
so only `Int64RangeOnly` is carried. -/
structure EncM where
  int64RangeOnly : Bool
  deriving DecidableEq

/-- The largest integer the encoder accepts under the mode. -/
def EncM.intHi (em : EncM) : Int := if em.int64RangeOnly then 2 ^ 63 - 1 else 2 ^ 64 - 1

/-- The smallest integer the encoder accepts under the mode. -/
def EncM.intLo (em : EncM) : Int := if em.int64RangeOnly then -(2 ^ 63) else -(2 ^ 64)

mutual
/-- Modelled from the spec: the canonical DRISL encoder (spec section 4.1):
shortest heads, definite lengths only, binary64 floats with NaN/Inf
rejected, UTF-8-checked text, map entries encoded then sorted bytewise by
encoded key with duplicates rejected, tag 42 only. -/
def encode (em : EncM) : Val → Option (List Byte)
  | .int n =>
    if 0 ≤ n then
      if n ≤ em.intHi then some (encHead 0 n.toNat) else none
    else
      if em.intLo ≤ n then some (encHead 1 (-1 - n).toNat) else none
  | .bool b => some [if b then byte 0xf5 else byte 0xf4]
  | .null => some [byte 0xf6]
  | .float bits =>
    if bits < 2 ^ 64 && !floatNanOrInf bits then some (byte 0xfb :: be8 bits) else none
  | .text s =>
    if validUtf8 s && s.length < 2 ^ 64 then some (encHead 3 s.length ++ s) else none
  | .bytes s =>
    if s.length < 2 ^ 64 then some (encHead 2 s.length ++ s) else none
  | .cid c =>
    if cidOk c then
      some (byte 0xd8 :: byte 0x2a :: byte 0x58 :: byte 0x25 :: byte 0x00 :: c)
    else none
  | .arr xs =>
    if xs.length < 2 ^ 64 then
      (encodeList em xs).map fun body => encHead 4 xs.length ++ body
    else none
  | .map ps =>
    if ps.length < 2 ^ 64 then
      (encodePairs em ps).bind fun eps =>
        let sorted := sortEnc eps
        if ascFrom none (sorted.map Prod.fst) then
          some (encHead 5 ps.length ++ flattenPairs sorted)
        else none
    else none
termination_by structural v => v

/-- Concatenated encodings of a list of array elements. -/
def encodeList (em : EncM) : List Val → Option (List Byte)
  | [] => some []
  | x :: xs => do pure ((← encode em x) ++ (← encodeList em xs))
termination_by structural xs => xs

/-- Encoded map entries (encoded key, encoded value) in input order;
key UTF-8 validity is checked here. -/
def encodePairs (em : EncM) : List (List Byte × Val) → Option (List (List Byte × List Byte))
  | [] => some []
  | (k, v) :: ps =>
    if validUtf8 k && k.length < 2 ^ 64 then do
      pure ((encKey k, ← encode em v) :: (← encodePairs em ps))
    else none
termination_by structural ps => ps
end

/-! ## The strict decoder (modelled from spec section 4.2) -/

/-- The resolved configuration of a decoding mode. -/
structure DecM where
  maxNested : Nat
  maxArr : Nat
  maxMap : Nat
  int64RangeOnly : Bool
  allowUndefined : Bool
  deriving DecidableEq

/-- The largest head argument accepted for an integer item (both signs use
the same argument bound: `2^63 - 1` under `Int64RangeOnly`, else
`2^64 - 1`). -/
def DecM.intHi (dm : DecM) : Nat := if dm.int64RangeOnly then 2 ^ 63 - 1 else 2 ^ 64 - 1

/-- Split off exactly `n` bytes, failing on truncated input. -/
def takeExact (n : Nat) (bs : List Byte) : Option (List Byte × List Byte) :=
  if n ≤ bs.length then some (bs.take n, bs.drop n) else none

/-- Modelled from the spec: decoding of major type 7 items.  Only false,
true, null, binary64 floats that are neither NaN nor infinite, and (when
`AllowUndefined` is set) undefined are accepted; float16/float32 heads and
all other simple values fail (spec section 4.2). -/
def decodeSimple (dm : DecM) (minor : Nat) (bs : List Byte) : Option (Val × List Byte) :=
  if minor = 20 then some (.bool false, bs)
  else if minor = 21 then some (.bool true, bs)
  else if minor = 22 then some (.null, bs)
  else if minor = 23 then if dm.allowUndefined then some (.null, bs) else none
  else if minor = 27 then
    match bs with
    | b1 :: b2 :: b3 :: b4 :: b5 :: b6 :: b7 :: b8 :: r =>
      let bits := 2 ^ 56 * b1.val + 2 ^ 48 * b2.val + 2 ^ 40 * b3.val + 2 ^ 32 * b4.val +
        2 ^ 24 * b5.val + 2 ^ 16 * b6.val + 256 * b7.val + b8.val
      if floatNanOrInf bits then none else some (.float bits, r)
    | _ => none
  else none

mutual
/-- Modelled from the spec: the strict DRISL decoder for one data item
(spec section 4.2).  `fuel` is a step budget ensuring termination — every
recursive call spends one unit, and callers supply a budget large enough
that it never runs out on inputs the decoder accepts; `depth` is the
nesting level, capped by `MaxNestedLevels`. -/
def decodeItem (dm : DecM) : Nat → Nat → List Byte → Option (Val × List Byte)
  | 0, _, _ => none
  | _ + 1, _, [] => none
  | fuel + 1, depth, b :: rest =>
    if dm.maxNested < depth then none
    else
      let major := b.val / 32
      let minor := b.val % 32
      if major = 0 then
        (readArg minor rest).bind fun ar =>
          if ar.1 ≤ dm.intHi then some (.int (ar.1 : Int), ar.2) else none
      else if major = 1 then
        (readArg minor rest).bind fun ar =>
          if ar.1 ≤ dm.intHi then some (.int (-1 - (ar.1 : Int)), ar.2) else none
      else if major = 2 then
        (readArg minor rest).bind fun ar =>
          (takeExact ar.1 ar.2).bind fun sr => some (.bytes sr.1, sr.2)
      else if major = 3 then
        (readArg minor rest).bind fun ar =>
          (takeExact ar.1 ar.2).bind fun sr =>
            if validUtf8 sr.1 then some (.text sr.1, sr.2) else none
      else if major = 4 then
        (readArg minor rest).bind fun ar =>
          if ar.1 ≤ dm.maxArr then
            (decodeArr dm fuel (depth + 1) ar.1 ar.2).bind fun vr =>
              some (.arr vr.1, vr.2)
          else none
      else if major = 5 then
        (readArg minor rest).bind fun ar =>
          if ar.1 ≤ dm.maxMap then
            (decodeMapPairs dm fuel (depth + 1) none ar.1 ar.2).bind fun pr =>
              some (.map pr.1, pr.2)
          else none
      else if major = 6 then
        (readArg minor rest).bind fun ar =>
          if ar.1 = 42 then
            (decodeItem dm fuel (depth + 1) ar.2).bind fun vr =>
              match vr.1 with
              | .bytes s =>
                match s with
                | z :: c => if z.val = 0 ∧ cidOk c = true then some (.cid c, vr.2) else none
                | [] => none
              | _ => none
          else none
      else
        decodeSimple dm minor rest
termination_by structural fuel _ _ => fuel

/-- Decode `count` consecutive array elements. -/
def decodeArr (dm : DecM) : Nat → Nat → Nat → List Byte → Option (List Val × List Byte)
  | 0, _, _, _ => none
  | _ + 1, _, 0, bs => some ([], bs)
  | fuel + 1, depth, count + 1, bs =>
    (decodeItem dm fuel depth bs).bind fun vr =>
      (decodeArr dm fuel depth count vr.2).bind fun lr =>
        some (vr.1 :: lr.1, lr.2)
termination_by structural fuel _ _ _ => fuel

/-- Decode `count` consecutive map pairs, enforcing text keys and strictly
ascending bytewise order of the encoded keys continuing from `prev`
(`EnforceSort` plus `DupMapKeyEnforcedAPF`: unsorted or duplicate keys
fail). -/
def decodeMapPairs (dm : DecM) :
    Nat → Nat → Option (List Byte) → Nat → List Byte →
      Option (List (List Byte × Val) × List Byte)
  | 0, _, _, _, _ => none
  | _ + 1, _, _, 0, bs => some ([], bs)
  | fuel + 1, depth, prev, count + 1, bs =>
    (decodeItem dm fuel depth bs).bind fun kr =>
      match kr.1 with
      | .text k =>
        if (match prev with | none => true | some p => bytesLt p (encKey k)) then
          (decodeItem dm fuel depth kr.2).bind fun vr =>
            (decodeMapPairs dm fuel depth (some (encKey k)) count vr.2).bind fun pr =>
              some ((k, vr.1) :: pr.1, pr.2)
        else none
      | _ => none
termination_by structural fuel _ _ _ _ => fuel
end

/-! ## Option structs and default modes (translated from drisl.go) -/

/-- `TimeMode` specifies how to encode `time.Time` values (no such value
exists in the modelled universe, so the choice is inert). -/
inductive TimeMode where
  | TimeRFC3339Nano | TimeUnix | TimeUnixMicro | TimeUnixDynamic
  | TimeRFC3339 | TimeModeReject
  deriving DecidableEq

/-- `EncOptions` specifies encoding options; the Go zero value has
`Time = TimeRFC3339Nano` (iota 0) and `Int64RangeOnly = false`. -/
structure EncOptions where
  Time : TimeMode := .TimeRFC3339Nano
  Int64RangeOnly : Bool := false
  deriving DecidableEq

/-- `DecOptions` specifies decoding options; the Go zero value leaves all
caps 0 (meaning: use the defaults). -/
structure DecOptions where
  MaxNestedLevels : Nat := 0
  MaxArrayElements : Nat := 0
  MaxMapPairs : Nat := 0
  Int64RangeOnly : Bool := false
  AllowUndefined : Bool := false
  deriving DecidableEq

/-- `EncOptions.EncMode` builds an encoding mode.  All the fixed strictness
settings are baked into the model; the only variable datum reaching the
modelled universe is `Int64RangeOnly` (`Time` only affects `time.Time`).
Option validation always succeeds for these fields. -/
def EncOptions.EncMode (o : EncOptions) : Except String EncM :=
  .ok ⟨o.Int64RangeOnly⟩

/-- `DecOptions.DecMode` builds a decoding mode.  Modelled from the spec:
a cap left 0 takes its documented default (32 nesting levels, 131072 array
elements, 131072 map pairs); explicit values outside the documented ranges
([4, 65535] and [16, 2147483647]) are rejected. -/
def DecOptions.DecMode (o : DecOptions) : Except String DecM :=
  if o.MaxNestedLevels ≠ 0 ∧ (o.MaxNestedLevels < 4 ∨ 65535 < o.MaxNestedLevels) then
    .error "invalid MaxNestedLevels"
  else if o.MaxArrayElements ≠ 0 ∧
      (o.MaxArrayElements < 16 ∨ 2147483647 < o.MaxArrayElements) then
    .error "invalid MaxArrayElements"
  else if o.MaxMapPairs ≠ 0 ∧ (o.MaxMapPairs < 16 ∨ 2147483647 < o.MaxMapPairs) then
    .error "invalid MaxMapPairs"
  else
    .ok ⟨if o.MaxNestedLevels = 0 then 32 else o.MaxNestedLevels,
         if o.MaxArrayElements = 0 then 131072 else o.MaxArrayElements,
         if o.MaxMapPairs = 0 then 131072 else o.MaxMapPairs,
         o.Int64RangeOnly, o.AllowUndefined⟩

/-- Marshalling under a mode: encode the value. -/
def EncM.marshal (em : EncM) (x : Val) : Option (List Byte) := encode em x

/-- Unmarshalling under a mode: decode one item and reject trailing data
(`ExtraneousDataError`).  The fuel `2 * bs.length + 1` dominates the
decoder's recursion on any input it accepts. -/
def DecM.unmarshal (dm : DecM) (bs : List Byte) : Option Val :=
  (decodeItem dm (2 * bs.length + 1) 0 bs).bind fun vr =>
    match vr.2 with
    | [] => some vr.1
    | _ :: _ => none

/-- The package-level encoding mode built by `init()` from `EncOptions{}`. -/
def drislEncMode : EncM := ⟨false⟩

/-- The package-level decoding mode built by `init()` from `DecOptions{}`. -/
def drislDecMode : DecM := ⟨32, 131072, 131072, false, false⟩

/-- `drisl.Marshal`: DRISL encoding with default options. -/
def Marshal (x : Val) : Option (List Byte) := drislEncMode.marshal x

/-- `drisl.Unmarshal`: DRISL decoding with default options. -/
def Unmarshal (bs : List Byte) : Option Val := drislDecMode.unmarshal bs

/-! ## Default-mode size and depth caps as a predicate on values -/

mutual
/-- A value placed at nesting depth `d` respects the default decode caps:
depth at most 32 at every item, at most 131072 array elements and map
pairs per container. -/
def withinLimits (d : Nat) : Val → Bool
  | .arr xs => decide (d ≤ 32) && decide (xs.length ≤ 131072) && withinLimitsList (d + 1) xs
  | .map ps => decide (d ≤ 32) && decide (ps.length ≤ 131072) && withinLimitsPairs (d + 1) ps
  | .cid _ => decide (d + 1 ≤ 32)
  | _ => decide (d ≤ 32)
termination_by structural v => v

/-- `withinLimits` for every element of an array body. -/
def withinLimitsList (d : Nat) : List Val → Bool
  | [] => true
  | x :: xs => withinLimits d x && withinLimitsList d xs
termination_by structural xs => xs

/-- `withinLimits` for every value of a map body. -/
def withinLimitsPairs (d : Nat) : List (List Byte × Val) → Bool
  | [] => true
  | (_, v) :: ps => withinLimits d v && withinLimitsPairs d ps
termination_by structural ps => ps
end

/-- A value the default round trip is about: `Marshal` succeeds on it and
it respects the default decode caps from the top level. -/
def Accepts (x : Val) : Prop := (Marshal x).isSome ∧ withinLimits 0 x = true

/-! ## Basic facts about bytes, heads and sorting -/

theorem byte_val (n : Nat) : (byte n).val = n % 256 := rfl

theorem byte_val_of_lt {n : Nat} (h : n < 256) : (byte n).val = n := by
  simp [byte_val, Nat.mod_eq_of_lt h]

theorem byte_of_val (b : Byte) : byte b.val = b := by
  apply Fin.ext
  simp [byte_val, Nat.mod_eq_of_lt b.isLt]

theorem encHead_ne_nil (major arg : Nat) : encHead major arg ≠ [] := by
  unfold encHead
  split_ifs <;> simp [be2, be4, be8]

theorem readArg_lt {minor : Nat} {bs : List Byte} {arg : Nat} {r : List Byte}
    (h : readArg minor bs = some (arg, r)) : arg < 2 ^ 64 := by
  unfold readArg at h
  split_ifs at h with h1 h2 h3 h4 h5
  · obtain ⟨rfl, rfl⟩ := Prod.mk.injEq .. ▸ Option.some.inj h
    omega
  · match bs with
    | [] => exact absurd h (by simp)
    | b :: r' =>
      have hb := b.isLt
      dsimp only at h
      split_ifs at h
      obtain ⟨rfl, rfl⟩ := Prod.mk.injEq .. ▸ Option.some.inj h
      omega
  · match bs with
    | [] => exact absurd h (by simp)
    | [_] => exact absurd h (by simp)
    | b1 :: b2 :: r' =>
      have hb1 := b1.isLt
      have hb2 := b2.isLt
      dsimp only at h
      split_ifs at h
      obtain ⟨rfl, rfl⟩ := Prod.mk.injEq .. ▸ Option.some.inj h
      omega
  · match bs with
    | [] => exact absurd h (by simp)
    | [_] => exact absurd h (by simp)
    | [_, _] => exact absurd h (by simp)
    | [_, _, _] => exact absurd h (by simp)
    | b1 :: b2 :: b3 :: b4 :: r' =>
      have hb1 := b1.isLt
      have hb2 := b2.isLt
      have hb3 := b3.isLt
      have hb4 := b4.isLt
      dsimp only at h
      split_ifs at h
      obtain ⟨rfl, rfl⟩ := Prod.mk.injEq .. ▸ Option.some.inj h
      omega
  · match bs with
    | [] => exact absurd h (by simp)
    | [_] => exact absurd h (by simp)
    | [_, _] => exact absurd h (by simp)
    | [_, _, _] => exact absurd h (by simp)
    | [_, _, _, _] => exact absurd h (by simp)
    | [_, _, _, _, _] => exact absurd h (by simp)
    | [_, _, _, _, _, _] => exact absurd h (by simp)
    | [_, _, _, _, _, _, _] => exact absurd h (by simp)
    | b1 :: b2 :: b3 :: b4 :: b5 :: b6 :: b7 :: b8 :: r' =>
      have hb1 := b1.isLt
      have hb2 := b2.isLt
      have hb3 := b3.isLt
      have hb4 := b4.isLt
      have hb5 := b5.isLt
      have hb6 := b6.isLt
      have hb7 := b7.isLt
      have hb8 := b8.isLt
      dsimp only at h
      split_ifs at h
      obtain ⟨rfl, rfl⟩ := Prod.mk.injEq .. ▸ Option.some.inj h
      omega

theorem readArg_elim {b : Byte} {bs : List Byte} {arg : Nat} {r : List Byte}
    (h : readArg (b.val % 32) bs = some (arg, r)) :
    b :: bs = encHead (b.val / 32) arg ++ r ∧ arg < 2 ^ 64 := by
  have hlt := readArg_lt h
  refine ⟨?_, hlt⟩
  have hb := b.isLt
  unfold readArg at h
  split_ifs at h with h1 h2 h3 h4 h5
  · obtain ⟨rfl, rfl⟩ := Prod.mk.injEq .. ▸ Option.some.inj h
    unfold encHead
    rw [if_pos h1]
    simp only [List.cons_append, List.nil_append, List.cons.injEq]
    refine ⟨?_, trivial⟩
    apply Fin.ext
    simp only [byte_val]
    omega
  · match bs with
    | [] => exact absurd h (by simp)
    | b1 :: r' =>
      have hb1 := b1.isLt
      dsimp only at h
      split_ifs at h with hge
      obtain ⟨rfl, rfl⟩ := Prod.mk.injEq .. ▸ Option.some.inj h
      unfold encHead
      rw [if_neg (by omega), if_pos hb1]
      simp only [List.cons_append, List.nil_append, List.cons.injEq]
      refine ⟨?_, ?_, trivial⟩
      · apply Fin.ext
        simp only [byte_val]
        omega
      · exact (byte_of_val b1).symm
  · match bs with
    | [] => exact absurd h (by simp)
    | [_] => exact absurd h (by simp)
    | b1 :: b2 :: r' =>
      have hb1 := b1.isLt
      have hb2 := b2.isLt
      dsimp only at h
      split_ifs at h with hge
      obtain ⟨rfl, rfl⟩ := Prod.mk.injEq .. ▸ Option.some.inj h
      unfold encHead
      rw [if_neg (by omega), if_neg (by omega), if_pos (by omega)]
      simp only [be2, List.cons_append, List.nil_append, List.cons.injEq]
      refine ⟨?_, ?_, ?_, trivial⟩ <;>
        · apply Fin.ext
          simp only [byte_val]
          omega
  · match bs with
    | [] => exact absurd h (by simp)
    | [_] => exact absurd h (by simp)
    | [_, _] => exact absurd h (by simp)
    | [_, _, _] => exact absurd h (by simp)
    | b1 :: b2 :: b3 :: b4 :: r' =>
      have hb1 := b1.isLt
      have hb2 := b2.isLt
      have hb3 := b3.isLt
      have hb4 := b4.isLt
      dsimp only at h
      split_ifs at h with hge
      obtain ⟨rfl, rfl⟩ := Prod.mk.injEq .. ▸ Option.some.inj h
      unfold encHead
      rw [if_neg (by omega), if_neg (by omega), if_neg (by omega), if_pos (by omega)]
      simp only [be4, List.cons_append, List.nil_append, List.cons.injEq]
      refine ⟨?_, ?_, ?_, ?_, ?_, trivial⟩ <;>
        · apply Fin.ext
          simp only [byte_val]
          omega
  · match bs with
    | [] => exact absurd h (by simp)
    | [_] => exact absurd h (by simp)
    | [_, _] => exact absurd h (by simp)
    | [_, _, _] => exact absurd h (by simp)
    | [_, _, _, _] => exact absurd h (by simp)
    | [_, _, _, _, _] => exact absurd h (by simp)
    | [_, _, _, _, _, _] => exact absurd h (by simp)
    | [_, _, _, _, _, _, _] => exact absurd h (by simp)
    | b1 :: b2 :: b3 :: b4 :: b5 :: b6 :: b7 :: b8 :: r' =>
      have hb1 := b1.isLt
      have hb2 := b2.isLt
      have hb3 := b3.isLt
      have hb4 := b4.isLt
      have hb5 := b5.isLt
      have hb6 := b6.isLt
      have hb7 := b7.isLt
      have hb8 := b8.isLt
      dsimp only at h
      split_ifs at h with hge
      obtain ⟨rfl, rfl⟩ := Prod.mk.injEq .. ▸ Option.some.inj h
      unfold encHead
      rw [if_neg (by omega), if_neg (by omega), if_neg (by omega), if_neg (by omega)]
      simp only [be8, List.cons_append, List.nil_append, List.cons.injEq]
      refine ⟨?_, ?_, ?_, ?_, ?_, ?_, ?_, ?_, ?_, trivial⟩ <;>
        · apply Fin.ext
          simp only [byte_val]
          omega

theorem readArg_small {minor : Nat} (h : minor < 24) (bs : List Byte) :
    readArg minor bs = some (minor, bs) := by
  simp [readArg, h]

theorem readArg_24 {v : Nat} (h24 : 24 ≤ v) (h : v < 256) (bs : List Byte) :
    readArg 24 (byte v :: bs) = some (v, bs) := by
  simp [readArg, byte_val_of_lt h, h24]

theorem readArg_25 {v : Nat} (h0 : 256 ≤ v) (h : v < 65536) (bs : List Byte) :
    readArg 25 (be2 v ++ bs) = some (v, bs) := by
  simp only [readArg, be2, byte_val, List.cons_append, List.nil_append]
  norm_num
  omega

theorem readArg_26 {v : Nat} (h0 : 65536 ≤ v) (h : v < 4294967296) (bs : List Byte) :
    readArg 26 (be4 v ++ bs) = some (v, bs) := by
  simp only [readArg, be4, byte_val, List.cons_append, List.nil_append]
  norm_num
  omega

theorem readArg_27 {v : Nat} (h0 : 4294967296 ≤ v) (h : v < 2 ^ 64) (bs : List Byte) :
    readArg 27 (be8 v ++ bs) = some (v, bs) := by
  simp only [readArg, be8, byte_val, List.cons_append, List.nil_append]
  norm_num
  omega

theorem encHead_readArg {major arg : Nat} (hmaj : major ≤ 7) (harg : arg < 2 ^ 64)
    (rest : List Byte) :
    ∃ b t, encHead major arg = b :: t ∧ b.val / 32 = major ∧
      readArg (b.val % 32) (t ++ rest) = some (arg, rest) := by
  unfold encHead
  split_ifs with h1 h2 h3 h4
  · have hbv : (byte (32 * major + arg)).val = 32 * major + arg := byte_val_of_lt (by omega)
    refine ⟨byte (32 * major + arg), [], rfl, by omega, ?_⟩
    have hmin : (byte (32 * major + arg)).val % 32 = arg := by omega
    rw [hmin, List.nil_append, readArg_small h1]
  · have hbv : (byte (32 * major + 24)).val = 32 * major + 24 := byte_val_of_lt (by omega)
    refine ⟨byte (32 * major + 24), [byte arg], rfl, by omega, ?_⟩
    have hmin : (byte (32 * major + 24)).val % 32 = 24 := by omega
    rw [hmin, List.cons_append, List.nil_append, readArg_24 (by omega) h2]
  · have hbv : (byte (32 * major + 25)).val = 32 * major + 25 := byte_val_of_lt (by omega)
    refine ⟨byte (32 * major + 25), be2 arg, rfl, by omega, ?_⟩
    have hmin : (byte (32 * major + 25)).val % 32 = 25 := by omega
    rw [hmin, readArg_25 (by omega) h3]
  · have hbv : (byte (32 * major + 26)).val = 32 * major + 26 := byte_val_of_lt (by omega)
    refine ⟨byte (32 * major + 26), be4 arg, rfl, by omega, ?_⟩
    have hmin : (byte (32 * major + 26)).val % 32 = 26 := by omega
    rw [hmin, readArg_26 (by omega) h4]
  · have hbv : (byte (32 * major + 27)).val = 32 * major + 27 := byte_val_of_lt (by omega)
    refine ⟨byte (32 * major + 27), be8 arg, rfl, by omega, ?_⟩
    have hmin : (byte (32 * major + 27)).val % 32 = 27 := by omega
    rw [hmin, readArg_27 (by omega) harg]

theorem takeExact_intro (s rest : List Byte) : takeExact s.length (s ++ rest) = some (s, rest) := by
  unfold takeExact
  rw [if_pos (by simp)]
  simp

theorem takeExact_elim {n : Nat} {bs s r : List Byte} (h : takeExact n bs = some (s, r)) :
    bs = s ++ r ∧ s.length = n := by
  unfold takeExact at h
  split_ifs at h with hle
  obtain ⟨rfl, rfl⟩ := Prod.mk.injEq .. ▸ Option.some.inj h
  exact ⟨(List.take_append_drop n bs).symm, List.length_take_of_le hle⟩

theorem takeExact_all (bs : List Byte) : takeExact bs.length bs = some (bs, []) := by
  unfold takeExact
  rw [if_pos (le_refl _)]
  simp

theorem cidOk_length {c : List Byte} (h : cidOk c = true) : c.length = 36 := by
  unfold cidOk NewCidFromBytes at h
  split_ifs at h with hlen
  · simp [Except.toOption] at h
  · exact Decidable.of_not_not hlen

theorem encode_length_pos {em : EncM} {x : Val} {cs : List Byte}
    (h : encode em x = some cs) : 1 ≤ cs.length := by
  have hp : ∀ m a (t : List Byte), 1 ≤ (encHead m a ++ t).length := by
    intro m a t
    have := List.length_pos.mpr (encHead_ne_nil m a)
    simp only [List.length_append]
    omega
  cases x with
  | int n =>
    unfold encode at h
    split_ifs at h <;> obtain ⟨rfl⟩ := Option.some.inj h
    · simpa using hp 0 n.toNat []
    · simpa using hp 1 (-1 - n).toNat []
  | bool b =>
    unfold encode at h
    obtain ⟨rfl⟩ := Option.some.inj h
    simp
  | null =>
    unfold encode at h
    obtain ⟨rfl⟩ := Option.some.inj h
    simp
  | float f =>
    unfold encode at h
    split_ifs at h
    obtain ⟨rfl⟩ := Option.some.inj h
    simp
  | text sx =>
    unfold encode at h
    split_ifs at h
    obtain ⟨rfl⟩ := Option.some.inj h
    exact hp 3 sx.length sx
  | bytes sx =>
    unfold encode at h
    split_ifs at h
    obtain ⟨rfl⟩ := Option.some.inj h
    exact hp 2 sx.length sx
  | cid c =>
    unfold encode at h
    split_ifs at h
    obtain ⟨rfl⟩ := Option.some.inj h
    simp
  | arr xs =>
    unfold encode at h
    split_ifs at h
    obtain ⟨body, _, rfl⟩ := Option.map_eq_some.mp h
    exact hp 4 xs.length body
  | map ps =>
    unfold encode at h
    split_ifs at h
    obtain ⟨eps, _, h2⟩ := Option.bind_eq_some.mp h
    dsimp only at h2
    split_ifs at h2
    obtain ⟨rfl⟩ := Option.some.inj h2
    exact hp 5 ps.length _

theorem canonList_eq (xs : List Val) : canonList xs = xs.map canon := by
  induction xs with
  | nil => rfl
  | cons x xs ih => simp [canonList, ih]

theorem canonPairs_eq (ps : List (List Byte × Val)) :
    canonPairs ps = ps.map fun p => (p.1, canon p.2) := by
  induction ps with
  | nil => rfl
  | cons p ps ih =>
    obtain ⟨k, v⟩ := p
    simp [canonPairs, ih]

theorem withinLimitsList_iff {d : Nat} {xs : List Val} :
    withinLimitsList d xs = true ↔ ∀ x ∈ xs, withinLimits d x = true := by
  induction xs with
  | nil => simp [withinLimitsList]
  | cons x xs ih => simp [withinLimitsList, ih]

theorem withinLimitsPairs_iff {d : Nat} {ps : List (List Byte × Val)} :
    withinLimitsPairs d ps = true ↔ ∀ p ∈ ps, withinLimits d p.2 = true := by
  induction ps with
  | nil => simp [withinLimitsPairs]
  | cons p ps ih =>
    obtain ⟨k, v⟩ := p
    simp [withinLimitsPairs, ih]

theorem ascFrom_anyPrev {ks : List (List Byte)} {p : Option (List Byte)}
    (h : ascFrom p ks = true) (q : Option (List Byte)) :
    ascFrom none ks = true ∧ (∀ x ∈ ks.head?, ∀ r ∈ q, bytesLt r x = true → ascFrom q ks = true) := by
  cases ks with
  | nil => simp [ascFrom]
  | cons k ks =>
    constructor
    · cases p with
      | none => exact h
      | some pv =>
        unfold ascFrom at h ⊢
        rw [Bool.and_eq_true] at h
        exact h.2
    · intro x hx r hr hlt
      simp at hx hr
      subst hx
      subst hr
      unfold ascFrom
      rw [hlt]
      simp only [Bool.true_and]
      cases p with
      | none => exact h
      | some pv =>
        unfold ascFrom at h
        rw [Bool.and_eq_true] at h
        exact h.2

theorem ascFrom_weaken {p : Option (List Byte)} {ks : List (List Byte)}
    (h : ascFrom p ks = true) : ascFrom none ks = true :=
  (ascFrom_anyPrev h none).1

theorem bind_eq_some_elim {α β : Type} {o : Option α} {f : α → Option β} {y : β}
    (h : o.bind f = some y) : ∃ a, o = some a ∧ f a = some y := by
  cases o with
  | none => exact absurd h (by simp)
  | some a => exact ⟨a, rfl, h⟩

theorem sortEnc_of_asc : ∀ {eps : List (List Byte × List Byte)},
    ascFrom none (eps.map Prod.fst) = true → sortEnc eps = eps := by
  intro eps
  induction eps with
  | nil => intro _; rfl
  | cons p eps ih =>
    intro h
    simp only [List.map_cons] at h
    have htail : ascFrom (some p.1) (eps.map Prod.fst) = true := h
    unfold sortEnc
    rw [ih (ascFrom_weaken htail)]
    cases eps with
    | nil => rfl
    | cons q qs =>
      have hlt : bytesLt p.1 q.1 = true := by
        simp only [List.map_cons] at htail
        unfold ascFrom at htail
        rw [Bool.and_eq_true] at htail
        exact htail.1
      unfold insertEnc
      rw [if_pos hlt]

theorem sortPairs_of_asc : ∀ {ps : List (List Byte × Val)},
    ascFrom none (ps.map fun p => encKey p.1) = true → sortPairs ps = ps := by
  intro ps
  induction ps with
  | nil => intro _; rfl
  | cons p ps ih =>
    intro h
    simp only [List.map_cons] at h
    have htail : ascFrom (some (encKey p.1)) (ps.map fun p => encKey p.1) = true := h
    unfold sortPairs
    rw [ih (ascFrom_weaken htail)]
    cases ps with
    | nil => rfl
    | cons q qs =>
      have hlt : bytesLt (encKey p.1) (encKey q.1) = true := by
        simp only [List.map_cons] at htail
        unfold ascFrom at htail
        rw [Bool.and_eq_true] at htail
        exact htail.1
      unfold insertPair
      rw [if_pos hlt]

theorem insertPair_canon (p : List Byte × Val) : ∀ ps : List (List Byte × Val),
    insertPair (p.1, canon p.2) (canonPairs ps) = canonPairs (insertPair p ps) := by
  intro ps
  induction ps with
  | nil =>
    obtain ⟨k, v⟩ := p
    rfl
  | cons q qs ih =>
    obtain ⟨kq, vq⟩ := q
    show insertPair (p.1, canon p.2) ((kq, canon vq) :: canonPairs qs) = _
    unfold insertPair
    by_cases hc : bytesLt (encKey p.1) (encKey kq) = true
    · rw [if_pos hc, if_pos hc]
      obtain ⟨k, v⟩ := p
      rfl
    · rw [if_neg hc, if_neg hc]
      show (kq, canon vq) :: insertPair (p.1, canon p.2) (canonPairs qs) =
        (kq, canon vq) :: canonPairs (insertPair p qs)
      rw [ih]

theorem sortPairs_canonPairs : ∀ ps : List (List Byte × Val),
    sortPairs (canonPairs ps) = canonPairs (sortPairs ps) := by
  intro ps
  induction ps with
  | nil => rfl
  | cons p ps ih =>
    obtain ⟨k, v⟩ := p
    show insertPair (k, canon v) (sortPairs (canonPairs ps)) =
      canonPairs (insertPair (k, v) (sortPairs ps))
    rw [ih]
    exact insertPair_canon (k, v) (sortPairs ps)

theorem encodePairs_insertPair {em : EncM} {k : List Byte} {v : Val} {ev : List Byte}
    (hk : (validUtf8 k && decide (k.length < 2 ^ 64)) = true)
    (hv : encode em v = some ev) :
    ∀ {ps : List (List Byte × Val)} {eps : List (List Byte × List Byte)},
      encodePairs em ps = some eps →
      encodePairs em (insertPair (k, v) ps) = some (insertEnc (encKey k, ev) eps) := by
  intro ps
  induction ps with
  | nil =>
    intro eps h
    obtain ⟨rfl⟩ := Option.some.inj h
    show encodePairs em [(k, v)] = _
    simp only [encodePairs, hk, if_true, hv]
    rfl
  | cons q qs ih =>
    intro eps h
    obtain ⟨kq, vq⟩ := q
    unfold encodePairs at h
    split_ifs at h with hgq
    obtain ⟨evq, hevq, h2⟩ := bind_eq_some_elim h
    obtain ⟨eqs, heqs, h3⟩ := bind_eq_some_elim h2
    obtain ⟨rfl⟩ := Option.some.inj h3
    show encodePairs em (insertPair (k, v) ((kq, vq) :: qs)) = _
    unfold insertPair insertEnc
    dsimp only
    by_cases hc : bytesLt (encKey k) (encKey kq) = true
    · rw [if_pos hc, if_pos hc]
      show encodePairs em ((k, v) :: (kq, vq) :: qs) = _
      simp only [encodePairs, hk, if_true, hv, hgq, hevq, heqs]
      rfl
    · rw [if_neg hc, if_neg hc]
      show encodePairs em ((kq, vq) :: insertPair (k, v) qs) = _
      simp only [encodePairs, hgq, if_true, hevq, ih heqs]
      rfl

theorem encodePairs_sortPairs {em : EncM} :
    ∀ {ps : List (List Byte × Val)} {eps : List (List Byte × List Byte)},
      encodePairs em ps = some eps →
      encodePairs em (sortPairs ps) = some (sortEnc eps) := by
  intro ps
  induction ps with
  | nil =>
    intro eps h
    obtain ⟨rfl⟩ := Option.some.inj h
    rfl
  | cons q qs ih =>
    intro eps h
    obtain ⟨k, v⟩ := q
    unfold encodePairs at h
    split_ifs at h with hg
    obtain ⟨ev, hev, h2⟩ := bind_eq_some_elim h
    obtain ⟨eqs, heqs, h3⟩ := bind_eq_some_elim h2
    obtain ⟨rfl⟩ := Option.some.inj h3
    show encodePairs em (insertPair (k, v) (sortPairs qs)) =
      some (insertEnc (encKey k, ev) (sortEnc eqs))
    exact encodePairs_insertPair hg hev (ih heqs)

theorem sortEnc_perm (eps : List (List Byte × List Byte)) :
    List.Perm (sortEnc eps) eps := by
  induction eps with
  | nil => simp [sortEnc]
  | cons p eps ih =>
    refine List.Perm.trans ?_ (ih.cons p)
    show List.Perm (insertEnc p (sortEnc eps)) _
    generalize sortEnc eps = qs
    induction qs with
    | nil => simp [insertEnc]
    | cons q qs ihq =>
      unfold insertEnc
      split
      · exact List.Perm.refl _
      · exact (ihq.cons q).trans (List.Perm.swap p q qs)

theorem encodePairs_length {em : EncM} :
    ∀ {ps : List (List Byte × Val)} {eps : List (List Byte × List Byte)},
      encodePairs em ps = some eps → eps.length = ps.length := by
  intro ps
  induction ps with
  | nil =>
    intro eps h
    obtain ⟨rfl⟩ := Option.some.inj h
    rfl
  | cons q qs ih =>
    intro eps h
    obtain ⟨k, v⟩ := q
    unfold encodePairs at h
    split_ifs at h with hg
    obtain ⟨ev, hev, h2⟩ := bind_eq_some_elim h
    obtain ⟨eqs, heqs, h3⟩ := bind_eq_some_elim h2
    obtain ⟨rfl⟩ := Option.some.inj h3
    simp [ih heqs]

/-! ## Evaluation lemmas for the encoder (default mode) -/

theorem drislEncMode_intHi : drislEncMode.intHi = 2 ^ 64 - 1 := rfl

theorem drislEncMode_intLo : drislEncMode.intLo = -(2 ^ 64) := rfl

theorem encode_int_nonneg {arg : Nat} (h : arg < 2 ^ 64) :
    encode drislEncMode (.int (arg : Int)) = some (encHead 0 arg) := by
  unfold encode
  rw [if_pos (by positivity), if_pos (by rw [drislEncMode_intHi]; omega)]
  simp

theorem encode_int_neg {arg : Nat} (h : arg < 2 ^ 64) :
    encode drislEncMode (.int (-1 - (arg : Int))) = some (encHead 1 arg) := by
  unfold encode
  rw [if_neg (by omega), if_pos (by rw [drislEncMode_intLo]; omega)]
  have : (-1 - (-1 - (arg : Int))).toNat = arg := by omega
  rw [this]

theorem encode_float_intro {bits : Nat} (h1 : bits < 2 ^ 64) (h2 : floatNanOrInf bits = false) :
    encode drislEncMode (.float bits) = some (byte 0xfb :: be8 bits) := by
  unfold encode
  rw [if_pos (by simp [h2]; omega)]

theorem encode_text_intro {k : List Byte}
    (hg : (validUtf8 k && decide (k.length < 2 ^ 64)) = true) :
    encode drislEncMode (.text k) = some (encKey k) := by
  unfold encode
  rw [if_pos hg]
  rfl

theorem encode_text_elim {em : EncM} {k cs : List Byte} (h : encode em (.text k) = some cs) :
    cs = encKey k ∧ (validUtf8 k && decide (k.length < 2 ^ 64)) = true := by
  unfold encode at h
  split_ifs at h with hg
  exact ⟨(Option.some.inj h).symm, hg⟩

theorem encode_bytes_intro {s : List Byte} (h : s.length < 2 ^ 64) :
    encode drislEncMode (.bytes s) = some (encHead 2 s.length ++ s) := by
  unfold encode
  rw [if_pos (by simpa using h)]

theorem encode_cid_intro {c : List Byte} (h : cidOk c = true) :
    encode drislEncMode (.cid c) =
      some (byte 0xd8 :: byte 0x2a :: byte 0x58 :: byte 0x25 :: byte 0x00 :: c) := by
  unfold encode
  rw [if_pos h]

theorem encode_arr_intro {xs : List Val} {body : List Byte} (hlen : xs.length < 2 ^ 64)
    (hbody : encodeList drislEncMode xs = some body) :
    encode drislEncMode (.arr xs) = some (encHead 4 xs.length ++ body) := by
  unfold encode
  rw [if_pos (by simpa using hlen)]
  rw [hbody]
  rfl

theorem encode_map_intro {ps : List (List Byte × Val)} {eps : List (List Byte × List Byte)}
    (hlen : ps.length < 2 ^ 64) (hps : encodePairs drislEncMode ps = some eps)
    (hsort : sortEnc eps = eps) (hasc : ascFrom none (eps.map Prod.fst) = true) :
    encode drislEncMode (.map ps) = some (encHead 5 ps.length ++ flattenPairs eps) := by
  unfold encode
  rw [if_pos (by simpa using hlen), hps]
  show (if ascFrom none ((sortEnc eps).map Prod.fst) = true then
    some (encHead 5 ps.length ++ flattenPairs (sortEnc eps)) else none) = _
  rw [hsort, if_pos hasc]

theorem encodeList_cons {em : EncM} {x : Val} {xs : List Val} {cs1 cs2 : List Byte}
    (h1 : encode em x = some cs1) (h2 : encodeList em xs = some cs2) :
    encodeList em (x :: xs) = some (cs1 ++ cs2) := by
  show (encode em x).bind (fun c => (encodeList em xs).bind fun t => some (c ++ t)) = _
  rw [h1, Option.some_bind, h2, Option.some_bind]

theorem encodePairs_cons {em : EncM} {k : List Byte} {v : Val}
    {ps : List (List Byte × Val)} {ev : List Byte} {eps : List (List Byte × List Byte)}
    (hg : (validUtf8 k && decide (k.length < 2 ^ 64)) = true)
    (hv : encode em v = some ev) (hps : encodePairs em ps = some eps) :
    encodePairs em ((k, v) :: ps) = some ((encKey k, ev) :: eps) := by
  show (if validUtf8 k && decide (k.length < 2 ^ 64) then
    (encode em v).bind fun e => (encodePairs em ps).bind fun t => some ((encKey k, e) :: t)
    else none) = _
  rw [if_pos hg, hv, Option.some_bind, hps, Option.some_bind]

theorem encodePairs_keys {em : EncM} :
    ∀ {ps : List (List Byte × Val)} {eps : List (List Byte × List Byte)},
      encodePairs em ps = some eps →
      eps.map Prod.fst = ps.map fun p => encKey p.1 := by
  intro ps
  induction ps with
  | nil =>
    intro eps h
    obtain ⟨rfl⟩ := Option.some.inj h
    rfl
  | cons q qs ih =>
    intro eps h
    obtain ⟨k, v⟩ := q
    unfold encodePairs at h
    split_ifs at h with hg
    obtain ⟨ev, hev, h2⟩ := bind_eq_some_elim h
    obtain ⟨eqs, heqs, h3⟩ := bind_eq_some_elim h2
    obtain ⟨rfl⟩ := Option.some.inj h3
    simp [ih heqs]

/-! ## Soundness of the strict decoder: every accepted item is the
canonical encoding of an in-caps value -/

/-- The decoder's invariant: the consumed bytes are exactly the canonical
encoding of the decoded value, the value is in normal form, and it
respects the caps at its depth. -/
def ItemInv (d : Nat) (bs : List Byte) (v : Val) (rest : List Byte) : Prop :=
  ∃ cs, bs = cs ++ rest ∧ encode drislEncMode v = some cs ∧ canon v = v ∧
    withinLimits d v = true

theorem decodeSimple_sound {b : Byte} {bs : List Byte} {v : Val} {rest : List Byte} {d : Nat}
    (hmaj : b.val / 32 = 7) (hd : d ≤ 32)
    (h : decodeSimple drislDecMode (b.val % 32) bs = some (v, rest)) :
    ItemInv d (b :: bs) v rest := by
  have hb := b.isLt
  unfold decodeSimple at h
  split_ifs at h with h20 h21 h22 h23 hau h27
  · obtain ⟨rfl, rfl⟩ := Prod.mk.injEq .. ▸ Option.some.inj h
    refine ⟨[byte 0xf4], ?_, rfl, rfl, by simp [withinLimits, hd]⟩
    simp only [List.cons_append, List.nil_append, List.cons.injEq]
    refine ⟨?_, trivial⟩
    apply Fin.ext
    simp only [byte_val]
    omega
  · obtain ⟨rfl, rfl⟩ := Prod.mk.injEq .. ▸ Option.some.inj h
    refine ⟨[byte 0xf5], ?_, rfl, rfl, by simp [withinLimits, hd]⟩
    simp only [List.cons_append, List.nil_append, List.cons.injEq]
    refine ⟨?_, trivial⟩
    apply Fin.ext
    simp only [byte_val]
    omega
  · obtain ⟨rfl, rfl⟩ := Prod.mk.injEq .. ▸ Option.some.inj h
    refine ⟨[byte 0xf6], ?_, rfl, rfl, by simp [withinLimits, hd]⟩
    simp only [List.cons_append, List.nil_append, List.cons.injEq]
    refine ⟨?_, trivial⟩
    apply Fin.ext
    simp only [byte_val]
    omega
  · exact absurd hau (by decide)
  · match bs with
    | [] => exact absurd h (by simp)
    | [_] => exact absurd h (by simp)
    | [_, _] => exact absurd h (by simp)
    | [_, _, _] => exact absurd h (by simp)
    | [_, _, _, _] => exact absurd h (by simp)
    | [_, _, _, _, _] => exact absurd h (by simp)
    | [_, _, _, _, _, _] => exact absurd h (by simp)
    | [_, _, _, _, _, _, _] => exact absurd h (by simp)
    | b1 :: b2 :: b3 :: b4 :: b5 :: b6 :: b7 :: b8 :: r =>
      have hb1 := b1.isLt
      have hb2 := b2.isLt
      have hb3 := b3.isLt
      have hb4 := b4.isLt
      have hb5 := b5.isLt
      have hb6 := b6.isLt
      have hb7 := b7.isLt
      have hb8 := b8.isLt
      dsimp only at h
      split_ifs at h with hnan
      obtain ⟨rfl, rfl⟩ := Prod.mk.injEq .. ▸ Option.some.inj h
      set bits := 2 ^ 56 * b1.val + 2 ^ 48 * b2.val + 2 ^ 40 * b3.val + 2 ^ 32 * b4.val +
        2 ^ 24 * b5.val + 2 ^ 16 * b6.val + 256 * b7.val + b8.val with hbits
    -- a
      refine ⟨byte 0xfb :: be8 bits, ?_,
        encode_float_intro (by omega) (Bool.not_eq_true _ ▸ hnan), rfl,
        by simp [withinLimits, hd]⟩
      simp only [be8, List.cons_append, List.nil_append, List.cons.injEq]
      refine ⟨?_, ?_, ?_, ?_, ?_, ?_, ?_, ?_, ?_, trivial⟩ <;>
        · apply Fin.ext
          simp only [byte_val]
          omega

theorem encode_bytes_elim {em : EncM} {sx cs : List Byte}
    (h : encode em (.bytes sx) = some cs) :
    cs = encHead 2 sx.length ++ sx ∧ sx.length < 2 ^ 64 := by
  unfold encode at h
  split_ifs at h with hg
  exact ⟨(Option.some.inj h).symm, by simpa using hg⟩

/-- Soundness of `decodeItem` at a given fuel. -/
def ItemSound (fuel : Nat) : Prop :=
  ∀ d bs v rest, decodeItem drislDecMode fuel d bs = some (v, rest) → ItemInv d bs v rest

/-- Soundness of `decodeArr` at a given fuel. -/
def ArrSound (fuel : Nat) : Prop :=
  ∀ d count bs vs rest, decodeArr drislDecMode fuel d count bs = some (vs, rest) →
    vs.length = count ∧ ∃ cs, bs = cs ++ rest ∧ encodeList drislEncMode vs = some cs ∧
      canonList vs = vs ∧ withinLimitsList d vs = true

/-- Soundness of `decodeMapPairs` at a given fuel. -/
def MapSound (fuel : Nat) : Prop :=
  ∀ d prev count bs ps rest,
    decodeMapPairs drislDecMode fuel d prev count bs = some (ps, rest) →
    ps.length = count ∧ ∃ eps, bs = flattenPairs eps ++ rest ∧
      encodePairs drislEncMode ps = some eps ∧
      ascFrom prev (eps.map Prod.fst) = true ∧ canonPairs ps = ps ∧
      withinLimitsPairs d ps = true

set_option maxHeartbeats 2000000 in
theorem decode_sound : ∀ fuel, ItemSound fuel ∧ ArrSound fuel ∧ MapSound fuel := by
  intro fuel
  induction fuel with
  | zero =>
    refine ⟨?_, ?_, ?_⟩
    · intro d bs v rest h
      rw [decodeItem.eq_1] at h
      exact Option.noConfusion h
    · intro d count bs vs rest h
      rw [decodeArr.eq_1] at h
      exact Option.noConfusion h
    · intro d prev count bs ps rest h
      rw [decodeMapPairs.eq_1] at h
      exact Option.noConfusion h
  | succ fuel ih =>
    obtain ⟨ihI, ihA, ihM⟩ := ih
    refine ⟨?_, ?_, ?_⟩
    · -- decodeItem
      intro d bs v rest h
      match bs with
      | [] =>
        rw [decodeItem.eq_2] at h
        exact Option.noConfusion h
      | b :: rest0 =>
        have hblt := b.isLt
        rw [decodeItem.eq_3] at h
        by_cases hdepth : drislDecMode.maxNested < d
        · rw [if_pos hdepth] at h
          exact Option.noConfusion h
        rw [if_neg hdepth] at h
        have hd : d ≤ 32 := by
          have h32 : drislDecMode.maxNested = 32 := rfl
          omega
        dsimp only at h
        by_cases h0 : b.val / 32 = 0
        · -- major 0: nonnegative integer
          rw [if_pos h0] at h
          obtain ⟨⟨arg, r⟩, hra, h2⟩ := bind_eq_some_elim h
          dsimp only at h2
          split_ifs at h2 with hhi
          obtain ⟨rfl, rfl⟩ := Prod.mk.injEq .. ▸ Option.some.inj h2
          obtain ⟨hwire, harg⟩ := readArg_elim hra
          rw [h0] at hwire
          exact ⟨encHead 0 arg, hwire, encode_int_nonneg harg, rfl,
            by simp [withinLimits, hd]⟩
        rw [if_neg h0] at h
        by_cases h1 : b.val / 32 = 1
        · -- major 1: negative integer
          rw [if_pos h1] at h
          obtain ⟨⟨arg, r⟩, hra, h2⟩ := bind_eq_some_elim h
          dsimp only at h2
          split_ifs at h2 with hhi
          obtain ⟨rfl, rfl⟩ := Prod.mk.injEq .. ▸ Option.some.inj h2
          obtain ⟨hwire, harg⟩ := readArg_elim hra
          rw [h1] at hwire
          exact ⟨encHead 1 arg, hwire, encode_int_neg harg, rfl,
            by simp [withinLimits, hd]⟩
        rw [if_neg h1] at h
        by_cases h2 : b.val / 32 = 2
        · -- major 2: byte string
          rw [if_pos h2] at h
          obtain ⟨⟨arg, r⟩, hra, hb2⟩ := bind_eq_some_elim h
          dsimp only at hb2
          obtain ⟨⟨sx, r2⟩, hte, h3⟩ := bind_eq_some_elim hb2
          dsimp only at h3
          obtain ⟨rfl, rfl⟩ := Prod.mk.injEq .. ▸ Option.some.inj h3
          obtain ⟨hwire, harg⟩ := readArg_elim hra
          rw [h2] at hwire
          obtain ⟨hr, hslen⟩ := takeExact_elim hte
          refine ⟨encHead 2 sx.length ++ sx, ?_, encode_bytes_intro (by omega), rfl,
            by simp [withinLimits, hd]⟩
          rw [hwire, hr, hslen]
          simp
        rw [if_neg h2] at h
        by_cases h3 : b.val / 32 = 3
        · -- major 3: text string
          rw [if_pos h3] at h
          obtain ⟨⟨arg, r⟩, hra, hb2⟩ := bind_eq_some_elim h
          dsimp only at hb2
          obtain ⟨⟨sx, r2⟩, hte, hb3⟩ := bind_eq_some_elim hb2
          dsimp only at hb3
          split_ifs at hb3 with hvu
          obtain ⟨rfl, rfl⟩ := Prod.mk.injEq .. ▸ Option.some.inj hb3
          obtain ⟨hwire, harg⟩ := readArg_elim hra
          rw [h3] at hwire
          obtain ⟨hr, hslen⟩ := takeExact_elim hte
          refine ⟨encKey sx, ?_, encode_text_intro (by simp [hvu]; omega), rfl,
            by simp [withinLimits, hd]⟩
          rw [hwire, hr]
          unfold encKey
          rw [hslen]
          simp
        rw [if_neg h3] at h
        by_cases h4 : b.val / 32 = 4
        · -- major 4: array
          rw [if_pos h4] at h
          obtain ⟨⟨arg, r⟩, hra, hb2⟩ := bind_eq_some_elim h
          dsimp only at hb2
          split_ifs at hb2 with hmax
          obtain ⟨⟨vs, r2⟩, hda, hb3⟩ := bind_eq_some_elim hb2
          dsimp only at hb3
          obtain ⟨rfl, rfl⟩ := Prod.mk.injEq .. ▸ Option.some.inj hb3
          obtain ⟨hwire, harg⟩ := readArg_elim hra
          rw [h4] at hwire
          obtain ⟨hlen, cs2, hr, henc, hcanon, hlim⟩ := ihA _ _ _ _ _ hda
          have hmax' : arg ≤ 131072 := hmax
          refine ⟨encHead 4 vs.length ++ cs2, ?_,
            encode_arr_intro (by omega) henc, ?_, ?_⟩
          · rw [hwire, hr, hlen]
            simp
          · show Val.arr (canonList vs) = _
            rw [hcanon]
          · simp [withinLimits, hd, hlim]
            omega
        rw [if_neg h4] at h
        by_cases h5 : b.val / 32 = 5
        · -- major 5: map
          rw [if_pos h5] at h
          obtain ⟨⟨arg, r⟩, hra, hb2⟩ := bind_eq_some_elim h
          dsimp only at hb2
          split_ifs at hb2 with hmax
          obtain ⟨⟨ps, r2⟩, hdm, hb3⟩ := bind_eq_some_elim hb2
          dsimp only at hb3
          obtain ⟨rfl, rfl⟩ := Prod.mk.injEq .. ▸ Option.some.inj hb3
          obtain ⟨hwire, harg⟩ := readArg_elim hra
          rw [h5] at hwire
          obtain ⟨hlen, eps, hr, henc, hasc, hcanon, hlim⟩ := ihM _ _ _ _ _ _ hdm
          have hmax' : arg ≤ 131072 := hmax
          have hsort : sortEnc eps = eps := sortEnc_of_asc hasc
          refine ⟨encHead 5 ps.length ++ flattenPairs eps, ?_,
            encode_map_intro (by omega) henc hsort hasc, ?_, ?_⟩
          · rw [hwire, hr, hlen]
            simp
          · show Val.map (sortPairs (canonPairs ps)) = _
            rw [hcanon, sortPairs_of_asc (by rw [← encodePairs_keys henc]; exact hasc)]
          · simp [withinLimits, hd, hlim]
            omega
        rw [if_neg h5] at h
        by_cases h6 : b.val / 32 = 6
        · -- major 6: tag (only tag 42, CID)
          rw [if_pos h6] at h
          obtain ⟨⟨arg, r⟩, hra, hb2⟩ := bind_eq_some_elim h
          dsimp only at hb2
          split_ifs at hb2 with h42
          obtain ⟨⟨vi, r2⟩, hdi, hb3⟩ := bind_eq_some_elim hb2
          dsimp only at hb3
          obtain ⟨hwire, harg⟩ := readArg_elim hra
          rw [h6, h42] at hwire
          obtain ⟨csin, hrin, hencin, _, hlimin⟩ := ihI _ _ _ _ hdi
          match vi, hb3 with
          | .bytes sx, hb3 =>
            match sx, hrin, hencin, hlimin with
            | z :: c, hrin, hencin, hlimin =>
              dsimp only at hb3
              split_ifs at hb3 with hzc
              obtain ⟨rfl, rfl⟩ := Prod.mk.injEq .. ▸ Option.some.inj hb3
              obtain ⟨hz, hcid⟩ := hzc
              obtain ⟨hcs, hbound⟩ := encode_bytes_elim hencin
              have hc36 : c.length = 36 := cidOk_length hcid
              have hzb : z = byte 0 := by
                apply Fin.ext
                rw [byte_val]
                omega
              refine ⟨byte 0xd8 :: byte 0x2a :: byte 0x58 :: byte 0x25 :: byte 0x00 :: c,
                ?_, encode_cid_intro hcid, rfl, ?_⟩
              · rw [hwire, hrin, hcs]
                have hhd : encHead 6 42 = [byte 0xd8, byte 0x2a] := by decide
                have hbodyhd : encHead 2 (z :: c).length = [byte 0x58, byte 0x25] := by
                  rw [show (z :: c).length = 37 by simp [hc36]]
                  decide
                rw [hhd, hbodyhd, hzb]
                simp
              · have : (decide (d + 1 ≤ 32)) = true := by
                  simp [withinLimits] at hlimin
                  simp [hlimin]
                simpa [withinLimits] using this
        rw [if_neg h6] at h
        -- major 7: simple values and floats
        have h7 : b.val / 32 = 7 := by omega
        exact decodeSimple_sound h7 hd h
    · -- decodeArr
      intro d count bs vs rest h
      match count with
      | 0 =>
        rw [decodeArr.eq_2] at h
        obtain ⟨rfl, rfl⟩ := Prod.mk.injEq .. ▸ Option.some.inj h
        exact ⟨rfl, [], by simp, rfl, rfl, rfl⟩
      | count + 1 =>
        rw [decodeArr.eq_3] at h
        obtain ⟨⟨v1, r1⟩, hd1, h2⟩ := bind_eq_some_elim h
        dsimp only at h2
        obtain ⟨⟨vs2, r2⟩, hrec, h3⟩ := bind_eq_some_elim h2
        dsimp only at h3
        obtain ⟨rfl, rfl⟩ := Prod.mk.injEq .. ▸ Option.some.inj h3
        obtain ⟨cs1, hw1, he1, hc1, hl1⟩ := ihI _ _ _ _ hd1
        obtain ⟨hlen, cs2, hw2, he2, hc2, hl2⟩ := ihA _ _ _ _ _ hrec
        refine ⟨by simp [hlen], cs1 ++ cs2, ?_, encodeList_cons he1 he2, ?_, ?_⟩
        · rw [hw1, hw2]
          simp
        · show canon v1 :: canonList vs2 = _
          rw [hc1, hc2]
        · show (withinLimits d v1 && withinLimitsList d vs2) = true
          rw [hl1, hl2]
          rfl
    · -- decodeMapPairs
      intro d prev count bs ps rest h
      match count with
      | 0 =>
        rw [decodeMapPairs.eq_2] at h
        obtain ⟨rfl, rfl⟩ := Prod.mk.injEq .. ▸ Option.some.inj h
        exact ⟨rfl, [], by simp [flattenPairs], rfl, by cases prev <;> rfl, rfl, rfl⟩
      | count + 1 =>
        rw [decodeMapPairs.eq_3] at h
        obtain ⟨⟨kv, r1⟩, hk1, h2⟩ := bind_eq_some_elim h
        dsimp only at h2
        match kv, hk1, h2 with
        | .text k, hk1, h2 =>
          dsimp only at h2
          split_ifs at h2 with hord
          obtain ⟨⟨v1, r2⟩, hv1, h3⟩ := bind_eq_some_elim h2
          dsimp only at h3
          obtain ⟨⟨ps2, r3⟩, hrec, h4⟩ := bind_eq_some_elim h3
          dsimp only at h4
          obtain ⟨rfl, rfl⟩ := Prod.mk.injEq .. ▸ Option.some.inj h4
          obtain ⟨csk, hwk, hek, _, _⟩ := ihI _ _ _ _ hk1
          obtain ⟨csv, hwv, hev, hcv, hlv⟩ := ihI _ _ _ _ hv1
          obtain ⟨hlen, eps2, hwr, her, hascr, hcr, hlr⟩ := ihM _ _ _ _ _ _ hrec
          obtain ⟨rfl, hg⟩ := encode_text_elim hek
          refine ⟨by simp [hlen], (encKey k, csv) :: eps2, ?_,
            encodePairs_cons hg hev her, ?_, ?_, ?_⟩
          · show bs = encKey k ++ csv ++ flattenPairs eps2 ++ r3
            rw [hwk, hwv, hwr]
            simp
          · show ascFrom prev (encKey k :: eps2.map Prod.fst) = true
            cases prev with
            | none => exact hascr
            | some p =>
              have hlt : bytesLt p (encKey k) = true := hord
              unfold ascFrom
              rw [hlt, hascr]
              rfl
          · show (k, canon v1) :: canonPairs ps2 = _
            rw [hcv, hcr]
          · show (withinLimits d v1 && withinLimitsPairs d ps2) = true
            rw [hlv, hlr]
            rfl

/-! ## Completeness: canonical encodings decode back (default modes) -/

theorem withinLimits_le {d : Nat} {x : Val} (h : withinLimits d x = true) : d ≤ 32 := by
  cases x <;> simp [withinLimits] at h <;> omega

theorem drislDecMode_not_lt {d : Nat} (hd : d ≤ 32) : ¬drislDecMode.maxNested < d := by
  have h32 : drislDecMode.maxNested = 32 := rfl
  omega

theorem decodeItem_simple_wire {fuel d : Nat} {b : Byte} (hmaj : b.val / 32 = 7)
    (hd : d ≤ 32) (bs : List Byte) :
    decodeItem drislDecMode (fuel + 1) d (b :: bs) =
      decodeSimple drislDecMode (b.val % 32) bs := by
  rw [decodeItem.eq_3, if_neg (drislDecMode_not_lt hd)]
  dsimp only
  rw [if_neg (by omega), if_neg (by omega), if_neg (by omega), if_neg (by omega),
    if_neg (by omega), if_neg (by omega), if_neg (by omega)]

theorem decodeItem_bytes_wire {fuel d : Nat} {s : List Byte} (hlen : s.length < 2 ^ 64)
    (hd : d ≤ 32) (rest : List Byte) :
    decodeItem drislDecMode (fuel + 1) d ((encHead 2 s.length ++ s) ++ rest) =
      some (.bytes s, rest) := by
  obtain ⟨b, t, hhd, hbmaj, hread⟩ := @encHead_readArg 2 s.length (by omega) hlen (s ++ rest)
  rw [hhd]
  simp only [List.cons_append, List.append_assoc]
  rw [decodeItem.eq_3, if_neg (drislDecMode_not_lt hd)]
  dsimp only
  rw [if_neg (by omega), if_neg (by omega), if_pos hbmaj, hread]
  rw [Option.some_bind]
  dsimp only
  rw [takeExact_intro, Option.some_bind]

theorem decodeItem_text_wire {fuel d : Nat} {s : List Byte} (hvu : validUtf8 s = true)
    (hlen : s.length < 2 ^ 64) (hd : d ≤ 32) (rest : List Byte) :
    decodeItem drislDecMode (fuel + 1) d (encKey s ++ rest) = some (.text s, rest) := by
  obtain ⟨b, t, hhd, hbmaj, hread⟩ := @encHead_readArg 3 s.length (by omega) hlen (s ++ rest)
  show decodeItem drislDecMode (fuel + 1) d ((encHead 3 s.length ++ s) ++ rest) = _
  rw [hhd]
  simp only [List.cons_append, List.append_assoc]
  rw [decodeItem.eq_3, if_neg (drislDecMode_not_lt hd)]
  dsimp only
  rw [if_neg (by omega), if_neg (by omega), if_neg (by omega), if_pos hbmaj, hread]
  rw [Option.some_bind]
  dsimp only
  rw [takeExact_intro, Option.some_bind, if_pos hvu]

/-- Completeness of `decodeItem` at a given fuel: a canonical encoding of an
in-caps value decodes back, provided the fuel dominates twice the encoding
length. -/
def ItemDec (fuel : Nat) : Prop :=
  ∀ d x cs rest, encode drislEncMode x = some cs → withinLimits d x = true →
    2 * cs.length ≤ fuel →
    decodeItem drislDecMode fuel d (cs ++ rest) = some (canon x, rest)

/-- Completeness of `decodeArr` at a given fuel. -/
def ListDec (fuel : Nat) : Prop :=
  ∀ d xs body rest, encodeList drislEncMode xs = some body →
    withinLimitsList d xs = true → 2 * body.length + 1 ≤ fuel →
    decodeArr drislDecMode fuel d xs.length (body ++ rest) = some (canonList xs, rest)

/-- Completeness of `decodeMapPairs` at a given fuel. -/
def PairsDec (fuel : Nat) : Prop :=
  ∀ d ps eps prev rest, encodePairs drislEncMode ps = some eps →
    withinLimitsPairs d ps = true → ascFrom prev (eps.map Prod.fst) = true →
    2 * (flattenPairs eps).length + 1 ≤ fuel →
    decodeMapPairs drislDecMode fuel d prev ps.length (flattenPairs eps ++ rest) =
      some (canonPairs ps, rest)

theorem encKey_length_pos (k : List Byte) : 1 ≤ (encKey k).length := by
  unfold encKey
  have := List.length_pos.mpr (encHead_ne_nil 3 k.length)
  simp only [List.length_append]
  omega

set_option maxHeartbeats 2000000 in
theorem decode_complete : ∀ fuel, ItemDec fuel ∧ ListDec fuel ∧ PairsDec fuel := by
  intro fuel
  induction fuel with
  | zero =>
    refine ⟨?_, ?_, ?_⟩
    · intro d x cs rest he _ hf
      have := encode_length_pos he
      omega
    · intro d xs body rest _ _ hf
      omega
    · intro d ps eps prev rest _ _ _ hf
      omega
  | succ fuel ih =>
    obtain ⟨ihI, ihL, ihP⟩ := ih
    refine ⟨?_, ?_, ?_⟩
    · -- decodeItem
      intro d x cs rest he hlim hf
      have hd : d ≤ 32 := withinLimits_le hlim
      cases x with
      | int n =>
        unfold encode at he
        split_ifs at he with hpos hhi hlo
        · obtain ⟨rfl⟩ := Option.some.inj he
          have hargbound : n.toNat < 2 ^ 64 := by
            have he' : drislEncMode.intHi = 2 ^ 64 - 1 := rfl
            rw [he'] at hhi
            omega
          obtain ⟨b, t, hhd, hbmaj, hread⟩ :=
            @encHead_readArg 0 n.toNat (by omega) hargbound rest
          rw [hhd]
          simp only [List.cons_append, List.append_assoc]
          rw [decodeItem.eq_3, if_neg (drislDecMode_not_lt hd)]
          dsimp only
          rw [if_pos hbmaj, hread, Option.some_bind]
          dsimp only
          rw [if_pos (show n.toNat ≤ drislDecMode.intHi by
            have he' : drislDecMode.intHi = 2 ^ 64 - 1 := rfl
            rw [he']
            omega)]
          have hn : ((n.toNat : Nat) : Int) = n := Int.toNat_of_nonneg hpos
          rw [show Val.int (n.toNat : Int) = canon (Val.int n) by rw [hn]; rfl]
        · obtain ⟨rfl⟩ := Option.some.inj he
          have hlo' : -(2 ^ 64) ≤ n := by
            have he' : drislEncMode.intLo = -(2 ^ 64) := rfl
            rw [he'] at hlo
            exact hlo
          have hargbound : (-1 - n).toNat < 2 ^ 64 := by omega
          obtain ⟨b, t, hhd, hbmaj, hread⟩ :=
            @encHead_readArg 1 (-1 - n).toNat (by omega) hargbound rest
          rw [hhd]
          simp only [List.cons_append, List.append_assoc]
          rw [decodeItem.eq_3, if_neg (drislDecMode_not_lt hd)]
          dsimp only
          rw [if_neg (by omega), if_pos hbmaj, hread, Option.some_bind]
          dsimp only
          rw [if_pos (show (-1 - n).toNat ≤ drislDecMode.intHi by
            have he' : drislDecMode.intHi = 2 ^ 64 - 1 := rfl
            rw [he']
            omega)]
          rw [show Val.int (-1 - ((-1 - n).toNat : Int)) = canon (Val.int n) by
            rw [show (-1 - ((-1 - n).toNat : Int)) = n by omega]; rfl]
      | bool b =>
        unfold encode at he
        obtain ⟨rfl⟩ := Option.some.inj he
        cases b with
        | false =>
          simp only [if_neg, List.cons_append, List.nil_append]
          rw [decodeItem_simple_wire (by decide) hd]
          rfl
        | true =>
          simp only [if_pos, List.cons_append, List.nil_append]
          rw [decodeItem_simple_wire (by decide) hd]
          rfl
      | null =>
        unfold encode at he
        obtain ⟨rfl⟩ := Option.some.inj he
        simp only [List.cons_append, List.nil_append]
        rw [decodeItem_simple_wire (by decide) hd]
        rfl
      | float bits =>
        unfold encode at he
        split_ifs at he with hg
        obtain ⟨rfl⟩ := Option.some.inj he
        rw [Bool.and_eq_true] at hg
        obtain ⟨hb64, hnan⟩ := hg
        have hb64' : bits < 2 ^ 64 := by
          have := of_decide_eq_true hb64
          omega
        have hnan' : floatNanOrInf bits = false := by
          cases hni : floatNanOrInf bits with
          | false => rfl
          | true => rw [hni] at hnan; exact absurd hnan (by decide)
        simp only [List.cons_append]
        rw [decodeItem_simple_wire (by decide) hd]
        unfold decodeSimple
        rw [if_neg (by decide), if_neg (by decide), if_neg (by decide),
          if_neg (by decide), if_pos (by decide)]
        simp only [be8, List.cons_append, List.nil_append]
        have hsum : 2 ^ 56 * (byte (bits / 2 ^ 56)).val + 2 ^ 48 * (byte (bits / 2 ^ 48)).val +
            2 ^ 40 * (byte (bits / 2 ^ 40)).val + 2 ^ 32 * (byte (bits / 2 ^ 32)).val +
            2 ^ 24 * (byte (bits / 2 ^ 24)).val + 2 ^ 16 * (byte (bits / 2 ^ 16)).val +
            256 * (byte (bits / 256)).val + (byte bits).val = bits := by
          simp only [byte_val]
          omega
        rw [hsum, if_neg (by rw [hnan']; exact Bool.false_ne_true)]
        rfl
      | text sx =>
        unfold encode at he
        split_ifs at he with hg
        obtain ⟨rfl⟩ := Option.some.inj he
        rw [Bool.and_eq_true] at hg
        exact decodeItem_text_wire hg.1 (of_decide_eq_true hg.2) hd rest
      | bytes sx =>
        unfold encode at he
        split_ifs at he with hg
        obtain ⟨rfl⟩ := Option.some.inj he
        exact decodeItem_bytes_wire (by simpa using hg) hd rest
      | cid c =>
        unfold encode at he
        split_ifs at he with hcid
        obtain ⟨rfl⟩ := Option.some.inj he
        have hc36 : c.length = 36 := cidOk_length hcid
        have hdd : d + 1 ≤ 32 := by
          unfold withinLimits at hlim
          exact of_decide_eq_true hlim
        match fuel, hf with
        | fuel + 1, hf =>
          simp only [List.cons_append]
          rw [decodeItem.eq_3, if_neg (drislDecMode_not_lt hd)]
          dsimp only
          rw [if_neg (by decide), if_neg (by decide), if_neg (by decide),
            if_neg (by decide), if_neg (by decide), if_neg (by decide),
            if_pos (by decide)]
          rw [show ((byte 0xd8).val % 32) = 24 from rfl]
          rw [readArg_24 (by omega) (by omega), Option.some_bind]
          dsimp only
          rw [if_pos rfl]
          have hw : byte 0x58 :: byte 0x25 :: byte 0x00 :: (c ++ rest)
              = (encHead 2 (byte 0x00 :: c).length ++ (byte 0x00 :: c)) ++ rest := by
            have hh : encHead 2 (byte 0x00 :: c).length = [byte 0x58, byte 0x25] := by
              rw [show (byte 0x00 :: c).length = 37 by simp [hc36]]
              decide
            rw [hh]
            simp
          rw [hw, decodeItem_bytes_wire (by simp [hc36]) (by omega) rest, Option.some_bind]
          dsimp only
          rw [if_pos ⟨rfl, hcid⟩]
          rfl
      | arr xs =>
        unfold encode at he
        split_ifs at he with hlen64
        obtain ⟨body, hbody, rfl⟩ := Option.map_eq_some.mp he
        have hlen64' : xs.length < 2 ^ 64 := by simpa using hlen64
        unfold withinLimits at hlim
        rw [Bool.and_eq_true, Bool.and_eq_true] at hlim
        obtain ⟨⟨_, hcnt⟩, hlimL⟩ := hlim
        have hcnt' : xs.length ≤ 131072 := of_decide_eq_true hcnt
        have hhdpos : 1 ≤ (encHead 4 xs.length).length :=
          List.length_pos.mpr (encHead_ne_nil 4 xs.length)
        obtain ⟨b, t, hhd, hbmaj, hread⟩ :=
          @encHead_readArg 4 xs.length (by omega) hlen64' (body ++ rest)
        have hlenhd : (encHead 4 xs.length).length + body.length = (encHead 4 xs.length ++ body).length := by
          simp
        rw [hhd]
        simp only [List.cons_append, List.append_assoc]
        rw [decodeItem.eq_3, if_neg (drislDecMode_not_lt hd)]
        dsimp only
        rw [if_neg (by omega), if_neg (by omega), if_neg (by omega), if_neg (by omega),
          if_pos hbmaj, hread, Option.some_bind]
        dsimp only
        rw [if_pos (show xs.length ≤ drislDecMode.maxArr from hcnt')]
        have hbound : 2 * body.length + 1 ≤ fuel := by
          rw [List.length_append] at hf
          omega
        rw [ihL (d + 1) xs body rest hbody hlimL hbound, Option.some_bind]
        rfl
      | map ps =>
        unfold encode at he
        split_ifs at he with hlen64
        obtain ⟨eps, heps, he2⟩ := bind_eq_some_elim he
        dsimp only at he2
        split_ifs at he2 with hasc
        obtain ⟨rfl⟩ := Option.some.inj he2
        have hlen64' : ps.length < 2 ^ 64 := by simpa using hlen64
        unfold withinLimits at hlim
        rw [Bool.and_eq_true, Bool.and_eq_true] at hlim
        obtain ⟨⟨_, hcnt⟩, hlimP⟩ := hlim
        have hcnt' : ps.length ≤ 131072 := of_decide_eq_true hcnt
        have hsorted : encodePairs drislEncMode (sortPairs ps) = some (sortEnc eps) :=
          encodePairs_sortPairs heps
        have hlimP' : withinLimitsPairs (d + 1) (sortPairs ps) = true := by
          rw [withinLimitsPairs_iff] at hlimP ⊢
          intro p hp
          exact hlimP p ((sortPairs_perm ps).subset hp)
        have hslen : (sortPairs ps).length = ps.length := (sortPairs_perm ps).length_eq
        have hhdpos : 1 ≤ (encHead 5 ps.length).length :=
          List.length_pos.mpr (encHead_ne_nil 5 ps.length)
        obtain ⟨b, t, hhd, hbmaj, hread⟩ :=
          @encHead_readArg 5 ps.length (by omega) hlen64'
            (flattenPairs (sortEnc eps) ++ rest)
        rw [hhd]
        simp only [List.cons_append, List.append_assoc]
        rw [decodeItem.eq_3, if_neg (drislDecMode_not_lt hd)]
        dsimp only
        rw [if_neg (by omega), if_neg (by omega), if_neg (by omega), if_neg (by omega),
          if_neg (by omega), if_pos hbmaj, hread, Option.some_bind]
        dsimp only
        rw [if_pos (show ps.length ≤ drislDecMode.maxMap from hcnt')]
        have hbound : 2 * (flattenPairs (sortEnc eps)).length + 1 ≤ fuel := by
          rw [List.length_append] at hf
          omega
        have hrec := ihP (d + 1) (sortPairs ps) (sortEnc eps) none rest hsorted hlimP' hasc hbound
        rw [hslen] at hrec
        rw [hrec, Option.some_bind]
        rw [show Val.map (canonPairs (sortPairs ps)) = canon (Val.map ps) by
          show _ = Val.map (sortPairs (canonPairs ps))
          rw [sortPairs_canonPairs]]
    · -- decodeArr
      intro d xs body rest he hlim hf
      cases xs with
      | nil =>
        obtain ⟨rfl⟩ := Option.some.inj he
        rw [List.nil_append, show ([] : List Val).length = 0 from rfl, decodeArr.eq_2]
        rfl
      | cons x xs =>
        obtain ⟨cs1, h1, he2⟩ := bind_eq_some_elim he
        obtain ⟨cs2, h2, he3⟩ := bind_eq_some_elim he2
        obtain ⟨rfl⟩ := Option.some.inj he3
        unfold withinLimitsList at hlim
        rw [Bool.and_eq_true] at hlim
        obtain ⟨hl1, hl2⟩ := hlim
        have e1 := encode_length_pos h1
        rw [List.length_append] at hf
        rw [List.length_cons, decodeArr.eq_3]
        simp only [List.append_assoc]
        rw [ihI d x cs1 (cs2 ++ rest) h1 hl1 (by omega), Option.some_bind]
        dsimp only
        rw [ihL d xs cs2 rest h2 hl2 (by omega), Option.some_bind]
        rfl
    · -- decodeMapPairs
      intro d ps eps prev rest he hlim hasc hf
      cases ps with
      | nil =>
        obtain ⟨rfl⟩ := Option.some.inj he
        rw [show flattenPairs [] = [] from rfl, List.nil_append,
          show ([] : List (List Byte × Val)).length = 0 from rfl, decodeMapPairs.eq_2]
        rfl
      | cons q qs =>
        obtain ⟨k, v⟩ := q
        unfold encodePairs at he
        split_ifs at he with hg
        obtain ⟨ev, hev, he2⟩ := bind_eq_some_elim he
        obtain ⟨eqs, heqs, he3⟩ := bind_eq_some_elim he2
        obtain ⟨rfl⟩ := Option.some.inj he3
        unfold withinLimitsPairs at hlim
        rw [Bool.and_eq_true] at hlim
        obtain ⟨hlv, hlr⟩ := hlim
        have hd : d ≤ 32 := withinLimits_le hlv
        have hek1 : 1 ≤ (encKey k).length := encKey_length_pos k
        have hev1 : 1 ≤ ev.length := encode_length_pos hev
        have hflat : flattenPairs ((encKey k, ev) :: eqs)
            = encKey k ++ ev ++ flattenPairs eqs := rfl
        rw [hflat] at hf ⊢
        simp only [List.length_append] at hf
        have hkey : decodeItem drislDecMode fuel d
            (encKey k ++ (ev ++ (flattenPairs eqs ++ rest))) =
            some (Val.text k, ev ++ (flattenPairs eqs ++ rest)) :=
          ihI d (.text k) (encKey k) (ev ++ (flattenPairs eqs ++ rest))
            (encode_text_intro hg) (by unfold withinLimits; simp [hd]) (by omega)
        have hval : decodeItem drislDecMode fuel d (ev ++ (flattenPairs eqs ++ rest)) =
            some (canon v, flattenPairs eqs ++ rest) :=
          ihI d v ev (flattenPairs eqs ++ rest) hev hlv (by omega)
        rw [List.length_cons, decodeMapPairs.eq_3]
        simp only [List.append_assoc]
        rw [hkey, Option.some_bind]
        dsimp only
        cases prev with
        | none =>
          have htail : ascFrom (some (encKey k)) (eqs.map Prod.fst) = true := by
            simp only [List.map_cons] at hasc
            exact hasc
          have hrec : decodeMapPairs drislDecMode fuel d (some (encKey k)) qs.length
              (flattenPairs eqs ++ rest) = some (canonPairs qs, rest) :=
            ihP d qs eqs (some (encKey k)) rest heqs hlr htail (by omega)
          rw [if_pos rfl, hval, Option.some_bind]
          dsimp only
          rw [hrec, Option.some_bind]
          rfl
        | some p =>
          simp only [List.map_cons] at hasc
          unfold ascFrom at hasc
          rw [Bool.and_eq_true] at hasc
          have htail : ascFrom (some (encKey k)) (eqs.map Prod.fst) = true := hasc.2
          have hrec : decodeMapPairs drislDecMode fuel d (some (encKey k)) qs.length
              (flattenPairs eqs ++ rest) = some (canonPairs qs, rest) :=
            ihP d qs eqs (some (encKey k)) rest heqs hlr htail (by omega)
          rw [if_pos hasc.1, hval, Option.some_bind]
          dsimp only
          rw [hrec, Option.some_bind]
          rfl

/-! ## Round-trip theorems for the default modes -/

theorem marshal_unmarshal {x : Val} (h : Accepts x) :
    ∃ cs, Marshal x = some cs ∧ Unmarshal cs = some (canon x) := by
  obtain ⟨hm, hlim⟩ := h
  obtain ⟨cs, hcs⟩ := Option.isSome_iff_exists.mp hm
  refine ⟨cs, hcs, ?_⟩
  unfold Unmarshal DecM.unmarshal
  have hdec := (decode_complete (2 * cs.length + 1)).1 0 x cs [] hcs hlim (by omega)
  rw [List.append_nil] at hdec
  rw [hdec, Option.some_bind]

theorem unmarshal_marshal {bs : List Byte} {v : Val} (h : Unmarshal bs = some v) :
    Marshal v = some bs ∧ canon v = v ∧ withinLimits 0 v = true := by
  unfold Unmarshal DecM.unmarshal at h
  obtain ⟨⟨v0, rest⟩, hdec, h2⟩ := bind_eq_some_elim h
  dsimp only at h2
  match rest, h2 with
  | [], h2 =>
    obtain ⟨rfl⟩ := Option.some.inj h2
    obtain ⟨cs, hw, he, hc, hl⟩ := (decode_sound _).1 _ _ _ _ hdec
    rw [List.append_nil] at hw
    subst hw
    exact ⟨he, hc, hl⟩

/-- C1: codec round trip.  For every value the codec accepts (`Marshal`
succeeds and the default caps are respected), `Unmarshal (Marshal x)`
succeeds and yields `x` back up to the type adapter's equivalence
(map-order normalization); and for every byte string the strict decoder
accepts, `Marshal (Unmarshal b)` reproduces `b` byte-exactly. -/
theorem C1_codec_round_trip :
    (∀ x : Val, Accepts x →
      ∃ cs v, Marshal x = some cs ∧ Unmarshal cs = some v ∧ equivVal v x) ∧
    (∀ (bs : List Byte) (v : Val), Unmarshal bs = some v → Marshal v = some bs) := by
  constructor
  · intro x hx
    obtain ⟨cs, hm, hu⟩ := marshal_unmarshal hx
    exact ⟨cs, canon x, hm, hu, (unmarshal_marshal hu).2.1⟩
  · intro bs v h
    exact (unmarshal_marshal h).1

/-- Witness for C1 at concrete inputs: an out-of-order two-entry map
value, and the wire bytes `a2 61 61 02 61 62 01` (the map
`{"a": 2, "b": 1}`). -/
theorem C1_codec_round_trip_witness :
    (∃ cs v, Marshal (.map [([byte 98], .int 1), ([byte 97], .int 2)]) = some cs ∧
      Unmarshal cs = some v ∧
      equivVal v (.map [([byte 98], .int 1), ([byte 97], .int 2)])) ∧
    Marshal (.map [([byte 97], .int 2), ([byte 98], .int 1)]) =
      some [byte 0xa2, byte 0x61, byte 0x61, byte 0x02, byte 0x61, byte 0x62, byte 0x01] :=
  ⟨C1_codec_round_trip.1 (.map [([byte 98], .int 1), ([byte 97], .int 2)])
    ⟨by decide, by decide⟩,
   C1_codec_round_trip.2
    [byte 0xa2, byte 0x61, byte 0x61, byte 0x02, byte 0x61, byte 0x62, byte 0x01]
    (.map [([byte 97], .int 2), ([byte 98], .int 1)]) rfl⟩

theorem decodeMapPairs_asc {dm : DecM} :
    ∀ {fuel d prev count bs ps rest},
      decodeMapPairs dm fuel d prev count bs = some (ps, rest) →
      ascFrom prev (ps.map fun p => encKey p.1) = true := by
  intro fuel
  induction fuel with
  | zero =>
    intro d prev count bs ps rest h
    rw [decodeMapPairs.eq_1] at h
    exact Option.noConfusion h
  | succ fuel ih =>
    intro d prev count bs ps rest h
    match count with
    | 0 =>
      rw [decodeMapPairs.eq_2] at h
      obtain ⟨rfl, rfl⟩ := Prod.mk.injEq .. ▸ Option.some.inj h
      cases prev <;> rfl
    | count + 1 =>
      rw [decodeMapPairs.eq_3] at h
      obtain ⟨⟨kv, r1⟩, hk1, h2⟩ := bind_eq_some_elim h
      dsimp only at h2
      match kv, h2 with
      | .text k, h2 =>
        dsimp only at h2
        split_ifs at h2 with hord
        obtain ⟨⟨v1, r2⟩, hv1, h3⟩ := bind_eq_some_elim h2
        dsimp only at h3
        obtain ⟨⟨ps2, r3⟩, hrec, h4⟩ := bind_eq_some_elim h3
        dsimp only at h4
        obtain ⟨rfl, rfl⟩ := Prod.mk.injEq .. ▸ Option.some.inj h4
        have htail := ih hrec
        show ascFrom prev (encKey k :: ps2.map fun p => encKey p.1) = true
        cases prev with
        | none => exact htail
        | some p =>
          have hlt : bytesLt p (encKey k) = true := hord
          unfold ascFrom
          rw [hlt, htail]
          rfl

theorem decodeItem_map_destruct {dm : DecM} {fuel d : Nat} {bs : List Byte}
    {ps : List (List Byte × Val)} {rest : List Byte}
    (h : decodeItem dm fuel d bs = some (.map ps, rest)) :
    ∃ fuel2 count r, decodeMapPairs dm fuel2 (d + 1) none count r = some (ps, rest) := by
  match fuel with
  | 0 =>
    rw [decodeItem.eq_1] at h
    exact Option.noConfusion h
  | fuel + 1 =>
    match bs with
    | [] =>
      rw [decodeItem.eq_2] at h
      exact Option.noConfusion h
    | b :: rest0 =>
      rw [decodeItem.eq_3] at h
      by_cases hdepth : dm.maxNested < d
      · rw [if_pos hdepth] at h
        exact Option.noConfusion h
      rw [if_neg hdepth] at h
      dsimp only at h
      by_cases h0 : b.val / 32 = 0
      · rw [if_pos h0] at h
        obtain ⟨⟨arg, r⟩, hra, h2⟩ := bind_eq_some_elim h
        dsimp only at h2
        split_ifs at h2
        exact absurd (Prod.mk.injEq .. ▸ Option.some.inj h2).1 (by simp)
      rw [if_neg h0] at h
      by_cases h1 : b.val / 32 = 1
      · rw [if_pos h1] at h
        obtain ⟨⟨arg, r⟩, hra, h2⟩ := bind_eq_some_elim h
        dsimp only at h2
        split_ifs at h2
        exact absurd (Prod.mk.injEq .. ▸ Option.some.inj h2).1 (by simp)
      rw [if_neg h1] at h
      by_cases h2 : b.val / 32 = 2
      · rw [if_pos h2] at h
        obtain ⟨⟨arg, r⟩, hra, hb2⟩ := bind_eq_some_elim h
        dsimp only at hb2
        obtain ⟨⟨sx, r2⟩, hte, h3⟩ := bind_eq_some_elim hb2
        dsimp only at h3
        exact absurd (Prod.mk.injEq .. ▸ Option.some.inj h3).1 (by simp)
      rw [if_neg h2] at h
      by_cases h3 : b.val / 32 = 3
      · rw [if_pos h3] at h
        obtain ⟨⟨arg, r⟩, hra, hb2⟩ := bind_eq_some_elim h
        dsimp only at hb2
        obtain ⟨⟨sx, r2⟩, hte, hb3⟩ := bind_eq_some_elim hb2
        dsimp only at hb3
        split_ifs at hb3
        exact absurd (Prod.mk.injEq .. ▸ Option.some.inj hb3).1 (by simp)
      rw [if_neg h3] at h
      by_cases h4 : b.val / 32 = 4
      · rw [if_pos h4] at h
        obtain ⟨⟨arg, r⟩, hra, hb2⟩ := bind_eq_some_elim h
        dsimp only at hb2
        split_ifs at hb2
        obtain ⟨⟨vs, r2⟩, hda, hb3⟩ := bind_eq_some_elim hb2
        dsimp only at hb3
        exact absurd (Prod.mk.injEq .. ▸ Option.some.inj hb3).1 (by simp)
      rw [if_neg h4] at h
      by_cases h5 : b.val / 32 = 5
      · rw [if_pos h5] at h
        obtain ⟨⟨arg, r⟩, hra, hb2⟩ := bind_eq_some_elim h
        dsimp only at hb2
        split_ifs at hb2
        obtain ⟨⟨ps0, r2⟩, hdm, hb3⟩ := bind_eq_some_elim hb2
        dsimp only at hb3
        obtain ⟨hv, hr⟩ := Prod.mk.injEq .. ▸ Option.some.inj hb3
        obtain ⟨rfl⟩ := Val.map.inj hv
        subst hr
        exact ⟨fuel, arg, r, hdm⟩
      rw [if_neg h5] at h
      by_cases h6 : b.val / 32 = 6
      · rw [if_pos h6] at h
        obtain ⟨⟨arg, r⟩, hra, hb2⟩ := bind_eq_some_elim h
        dsimp only at hb2
        split_ifs at hb2
        obtain ⟨⟨vi, r2⟩, hdi, hb3⟩ := bind_eq_some_elim hb2
        dsimp only at hb3
        split at hb3
        · split at hb3
          · split_ifs at hb3
            exact absurd (Prod.mk.injEq .. ▸ Option.some.inj hb3).1 (by simp)
          · exact Option.noConfusion hb3
        · exact Option.noConfusion hb3
      rw [if_neg h6] at h
      unfold decodeSimple at h
      split_ifs at h <;>
        first
          | exact absurd (Prod.mk.injEq .. ▸ Option.some.inj h).1 (by simp)
          | (match rest0, h with
             | b1 :: b2 :: b3 :: b4 :: b5 :: b6 :: b7 :: b8 :: r, h => ?_)
      · dsimp only at h
        split_ifs at h
        exact absurd (Prod.mk.injEq .. ▸ Option.some.inj h).1 (by simp)

/-- C2: canonical map-key ordering.  Whenever `Marshal` succeeds on a map
value it emits the entries with encoded keys in strictly ascending
bytewise lexicographic order; and any map `Unmarshal` accepts has its
encoded keys strictly ascending in that order — so out-of-order inputs
and duplicate keys (which are never strictly ascending) are rejected. -/
theorem C2_map_key_ordering :
    (∀ (ps : List (List Byte × Val)) (cs : List Byte), Marshal (.map ps) = some cs →
      ∃ eps, cs = encHead 5 ps.length ++ flattenPairs eps ∧
        ascFrom none (eps.map Prod.fst) = true) ∧
    (∀ (bs : List Byte) (ps : List (List Byte × Val)), Unmarshal bs = some (.map ps) →
      ascFrom none (ps.map fun p => encKey p.1) = true) := by
  constructor
  · intro ps cs h
    unfold Marshal EncM.marshal encode at h
    split_ifs at h with hlen
    obtain ⟨eps, heps, h2⟩ := bind_eq_some_elim h
    dsimp only at h2
    split_ifs at h2 with hasc
    obtain ⟨rfl⟩ := Option.some.inj h2
    exact ⟨sortEnc eps, rfl, hasc⟩
  · intro bs ps h
    unfold Unmarshal DecM.unmarshal at h
    obtain ⟨⟨v0, rest⟩, hdec, h2⟩ := bind_eq_some_elim h
    dsimp only at h2
    match rest, h2 with
    | [], h2 =>
      obtain ⟨rfl⟩ := Option.some.inj h2
      obtain ⟨fuel2, count, r, hdm⟩ := decodeItem_map_destruct hdec
      exact decodeMapPairs_asc hdm

/-- Witness for C2 at concrete inputs: the out-of-order map value
`[("b", 1), ("a", 2)]` marshals with sorted keys, and the accepted wire
`a2 61 61 02 61 62 01` has ascending keys. -/
theorem C2_map_key_ordering_witness :
    (∃ eps, [byte 0xa2, byte 0x61, byte 0x61, byte 0x02, byte 0x61, byte 0x62, byte 0x01] =
        encHead 5 ([([byte 98], Val.int 1), ([byte 97], Val.int 2)] :
          List (List Byte × Val)).length ++ flattenPairs eps ∧
      ascFrom none (eps.map Prod.fst) = true) ∧
    ascFrom none (([([byte 97], Val.int 2), ([byte 98], Val.int 1)] :
      List (List Byte × Val)).map fun p => encKey p.1) = true :=
  ⟨C2_map_key_ordering.1 [([byte 98], .int 1), ([byte 97], .int 2)]
    [byte 0xa2, byte 0x61, byte 0x61, byte 0x02, byte 0x61, byte 0x62, byte 0x01] rfl,
   C2_map_key_ordering.2
    [byte 0xa2, byte 0x61, byte 0x61, byte 0x02, byte 0x61, byte 0x62, byte 0x01]
    [([byte 97], .int 2), ([byte 98], .int 1)] rfl⟩

set_option maxRecDepth 10000 in
/-- C5 counterexample: the claim calls the encoding of the sequence 1..26 a
"32-byte output"; the actual output of `Marshal` on that sequence is 31
bytes long (one head byte `98 1a` plus 24 one-byte and 2 two-byte integer
items). -/
theorem C5_counterexample :
    ∃ cs, Marshal (.arr ((List.range 26).map fun i => .int ((i : Int) + 1))) = some cs ∧
      cs.length = 31 ∧ ¬cs.length = 32 :=
  ⟨[byte 0x98, byte 0x1a, byte 0x01, byte 0x02, byte 0x03, byte 0x04, byte 0x05,
    byte 0x06, byte 0x07, byte 0x08, byte 0x09, byte 0x0a, byte 0x0b, byte 0x0c,
    byte 0x0d, byte 0x0e, byte 0x0f, byte 0x10, byte 0x11, byte 0x12, byte 0x13,
    byte 0x14, byte 0x15, byte 0x16, byte 0x17, byte 0x18, byte 0x18, byte 0x18,
    byte 0x19, byte 0x18, byte 0x1a],
   by decide, by decide, by decide⟩

set_option maxRecDepth 40000 in
/-- C5 (amended): `Marshal` applied to the 26-element sequence of integers
1..26 returns the 31-byte output `98 1a 01 02 03 … 18 1a`, beginning with
bytes `98 1a 01 02 03`, and `Unmarshal` of that output returns the same 26
integers in order. -/
theorem C5_literal_scenario :
    ∃ cs, Marshal (.arr ((List.range 26).map fun i => .int ((i : Int) + 1))) = some cs ∧
      cs.length = 31 ∧
      cs.take 5 = [byte 0x98, byte 0x1a, byte 0x01, byte 0x02, byte 0x03] ∧
      Unmarshal cs = some (.arr ((List.range 26).map fun i => .int ((i : Int) + 1))) :=
  ⟨[byte 0x98, byte 0x1a, byte 0x01, byte 0x02, byte 0x03, byte 0x04, byte 0x05,
    byte 0x06, byte 0x07, byte 0x08, byte 0x09, byte 0x0a, byte 0x0b, byte 0x0c,
    byte 0x0d, byte 0x0e, byte 0x0f, byte 0x10, byte 0x11, byte 0x12, byte 0x13,
    byte 0x14, byte 0x15, byte 0x16, byte 0x17, byte 0x18, byte 0x18, byte 0x18,
    byte 0x19, byte 0x18, byte 0x1a],
   by decide, by decide, by decide, rfl⟩

/-- C8: default-mode equivalence.  The mode built from the zero-value
options is exactly the package-level mode built by `init()`, and the
package-level `Marshal`/`Unmarshal` behave identically to it on every
input. -/
theorem C8_default_mode_equivalence :
    (∀ em, EncOptions.EncMode {} = .ok em → ∀ v : Val, Marshal v = em.marshal v) ∧
    (∀ dm, DecOptions.DecMode {} = .ok dm → ∀ bs : List Byte, Unmarshal bs = dm.unmarshal bs) := by
  constructor
  · intro em hem v
    have h : drislEncMode = em := Except.ok.inj hem
    rw [← h]
    rfl
  · intro dm hdm bs
    have h : drislDecMode = dm := Except.ok.inj hdm
    rw [← h]
    rfl

/-- Witness for C8 at concrete inputs. -/
theorem C8_default_mode_equivalence_witness :
    Marshal (.int 5) = EncM.marshal ⟨false⟩ (.int 5) ∧
    Unmarshal [byte 5] = DecM.unmarshal ⟨32, 131072, 131072, false, false⟩ [byte 5] :=
  ⟨C8_default_mode_equivalence.1 ⟨false⟩ rfl (.int 5),
   C8_default_mode_equivalence.2 ⟨32, 131072, 131072, false, false⟩ rfl [byte 5]⟩

/-! ## Base32 (multibase "b") and CID strings (translated from the cid
package; the Go standard library `encoding/base32` engine is modelled from
its documented RFC 4648 behaviour with the repository's lowercase alphabet
`abcdefghijklmnopqrstuvwxyz234567` and no padding) -/

/-- The decode map of `base32.NewEncoding("abcdefghijklmnopqrstuvwxyz234567")`:
only the exact 32 alphabet bytes decode; every other byte (including the
uppercase letters) is invalid input. -/
def b32DecodeMap (c : Byte) : Option Nat :=
  if 97 ≤ c.val ∧ c.val ≤ 122 then some (c.val - 97)
  else if 50 ≤ c.val ∧ c.val ≤ 55 then some (c.val - 50 + 26) else none

/-- One full 8-digit quantum decodes to 5 bytes. -/
def b32Quantum (v0 v1 v2 v3 v4 v5 v6 v7 : Nat) : List Byte :=
  [byte (v0 * 8 + v1 / 4), byte (v1 * 64 + v2 * 2 + v3 / 16),
   byte (v3 * 16 + v4 / 2), byte (v4 * 128 + v5 * 4 + v6 / 8),
   byte (v6 * 32 + v7)]

/-- `multibaseBase32.DecodeString`, processing 8-digit quanta; a final
partial quantum of j digits contributes the bytes of the `8/7/5/4/2`
switch (the only partial shape the call site produces is j = 2, since the
input is always 58 digits). -/
def b32Decode : List Byte → Option (List Byte)
  | [] => some []
  | [c0] => (b32DecodeMap c0).bind fun _ => some []
  | [c0, c1] =>
    (b32DecodeMap c0).bind fun v0 => (b32DecodeMap c1).bind fun v1 =>
      some [byte (v0 * 8 + v1 / 4)]
  | [c0, c1, c2] =>
    (b32DecodeMap c0).bind fun _ => (b32DecodeMap c1).bind fun _ =>
      (b32DecodeMap c2).bind fun _ => some []
  | [c0, c1, c2, c3] =>
    (b32DecodeMap c0).bind fun v0 => (b32DecodeMap c1).bind fun v1 =>
      (b32DecodeMap c2).bind fun v2 => (b32DecodeMap c3).bind fun v3 =>
        some [byte (v0 * 8 + v1 / 4), byte (v1 * 64 + v2 * 2 + v3 / 16)]
  | [c0, c1, c2, c3, c4] =>
    (b32DecodeMap c0).bind fun v0 => (b32DecodeMap c1).bind fun v1 =>
      (b32DecodeMap c2).bind fun v2 => (b32DecodeMap c3).bind fun v3 =>
        (b32DecodeMap c4).bind fun v4 =>
          some [byte (v0 * 8 + v1 / 4), byte (v1 * 64 + v2 * 2 + v3 / 16),
            byte (v3 * 16 + v4 / 2)]
  | [c0, c1, c2, c3, c4, c5] =>
    (b32DecodeMap c0).bind fun _ => (b32DecodeMap c1).bind fun _ =>
      (b32DecodeMap c2).bind fun _ => (b32DecodeMap c3).bind fun _ =>
        (b32DecodeMap c4).bind fun _ => (b32DecodeMap c5).bind fun _ => some []
  | [c0, c1, c2, c3, c4, c5, c6] =>
    (b32DecodeMap c0).bind fun v0 => (b32DecodeMap c1).bind fun v1 =>
      (b32DecodeMap c2).bind fun v2 => (b32DecodeMap c3).bind fun v3 =>
        (b32DecodeMap c4).bind fun v4 => (b32DecodeMap c5).bind fun v5 =>
          (b32DecodeMap c6).bind fun v6 =>
            some [byte (v0 * 8 + v1 / 4), byte (v1 * 64 + v2 * 2 + v3 / 16),
              byte (v3 * 16 + v4 / 2), byte (v4 * 128 + v5 * 4 + v6 / 8)]
  | c0 :: c1 :: c2 :: c3 :: c4 :: c5 :: c6 :: c7 :: rest =>
    (b32DecodeMap c0).bind fun v0 => (b32DecodeMap c1).bind fun v1 =>
      (b32DecodeMap c2).bind fun v2 => (b32DecodeMap c3).bind fun v3 =>
        (b32DecodeMap c4).bind fun v4 => (b32DecodeMap c5).bind fun v5 =>
          (b32DecodeMap c6).bind fun v6 => (b32DecodeMap c7).bind fun v7 =>
            (b32Decode rest).bind fun tail =>
              some (b32Quantum v0 v1 v2 v3 v4 v5 v6 v7 ++ tail)

/-- A base32 digit (0..31) to its alphabet byte. -/
def b32Digit (d : Nat) : Byte :=
  if d % 32 < 26 then byte (97 + d % 32) else byte (50 + (d % 32 - 26))

/-- `multibaseBase32.EncodeToString`, emitting 8 digits per 5 input bytes
and a final 2/4/5/7-digit group for a 1/2/3/4-byte remainder. -/
def b32Encode : List Byte → List Byte
  | [] => []
  | [b0] => [b32Digit (b0.val / 8), b32Digit (b0.val * 4)]
  | [b0, b1] =>
    [b32Digit (b0.val / 8), b32Digit (b0.val * 4 + b1.val / 64),
     b32Digit (b1.val / 2), b32Digit (b1.val * 16)]
  | [b0, b1, b2] =>
    [b32Digit (b0.val / 8), b32Digit (b0.val * 4 + b1.val / 64),
     b32Digit (b1.val / 2), b32Digit (b1.val * 16 + b2.val / 16),
     b32Digit (b2.val * 2)]
  | [b0, b1, b2, b3] =>
    [b32Digit (b0.val / 8), b32Digit (b0.val * 4 + b1.val / 64),
     b32Digit (b1.val / 2), b32Digit (b1.val * 16 + b2.val / 16),
     b32Digit (b2.val * 2 + b3.val / 128), b32Digit (b3.val / 4),
     b32Digit (b3.val * 8)]
  | b0 :: b1 :: b2 :: b3 :: b4 :: rest =>
    [b32Digit (b0.val / 8), b32Digit (b0.val * 4 + b1.val / 64),
     b32Digit (b1.val / 2), b32Digit (b1.val * 16 + b2.val / 16),
     b32Digit (b2.val * 2 + b3.val / 128), b32Digit (b3.val / 4),
     b32Digit (b3.val * 8 + b4.val / 32), b32Digit b4.val] ++ b32Encode rest

/-- Go string bytes of a Lean string literal (ASCII). -/
def strBytes (s : String) : List Byte := s.toList.map fun c => byte c.toNat

/-- `NewCidFromString` creates a new DASL CID from the given string:
length 59, leading 'b', base32 body, then the binary predicate. -/
def NewCidFromString (s : List Byte) : Except String Cid :=
  if s.length ≠ CidStrLength then .error "invalid length"
  else
    match s with
    | c0 :: rest =>
      if c0.val ≠ 98 then .error "not base32 encoded"
      else
        match b32Decode rest with
        | none => .error "corrupt base32 input"
        | some bs => NewCidFromBytes bs
    | [] => .error "invalid length"

/-- `Cid.String` returns the CID in string format: 'b' plus the base32
form of the 36 binary bytes. -/
def Cid.StringOf (c : Cid) : List Byte := byte 98 :: b32Encode c.b

/-- Modelled from the spec: `cbor.Unmarshal` of one CBOR item into
`cbor.Tag` when the item is a tag wrapping a definite-length byte string;
anything else (or trailing data) fails. -/
def cborParseTagBytes (bs : List Byte) : Option (Nat × List Byte) :=
  match bs with
  | b :: rest =>
    if b.val / 32 = 6 then
      (readArg (b.val % 32) rest).bind fun nr =>
        match nr.2 with
        | c :: crest =>
          if c.val / 32 = 2 then
            (readArg (c.val % 32) crest).bind fun ar =>
              (takeExact ar.1 ar.2).bind fun sr =>
                match sr.2 with
                | [] => some (nr.1, sr.1)
                | _ :: _ => none
          else none
        | [] => none
    else none
  | [] => none

/-- `UnmarshalCBOR` parses a tag item, requires tag number 42, a non-empty
byte-string content with leading `0x00`, and validates the remainder with
`NewCidFromBytes`. -/
def Cid.UnmarshalCBOR (bs : List Byte) : Except String Cid :=
  match cborParseTagBytes bs with
  | none => .error "unmarshal: not a tag of a byte string"
  | some (num, content) =>
    if num ≠ 42 then .error "wrong tag number"
    else
      match content with
      | [] => .error "invalid cid: unmarshal: no data"
      | z :: rest =>
        if z.val ≠ 0 then .error "bad CBOR CID prefix"
        else NewCidFromBytes rest

theorem cidOk_elim {bs : List Byte} (h : cidOk bs = true) :
    NewCidFromBytes bs = .ok ⟨bs⟩ ∧ bs.length = 36 := by
  have hlen := cidOk_length h
  refine ⟨?_, hlen⟩
  unfold cidOk at h
  unfold NewCidFromBytes at h ⊢
  split_ifs at h ⊢ with hl
  · simp [Except.toOption] at h
  · match bs with
    | [] => simp at hlen
    | [_] => simp at hlen
    | [_, _] => simp at hlen
    | [_, _, _] => simp at hlen
    | v :: cdc :: ht :: hs :: rest =>
      dsimp only at h ⊢
      split_ifs at h ⊢ <;> simp [Except.toOption] at h ⊢

theorem cidOk_head {bs : List Byte} (h : cidOk bs = true) :
    ∃ v rest, bs = v :: rest ∧ v.val = 1 := by
  have hlen := cidOk_length h
  unfold cidOk NewCidFromBytes at h
  split_ifs at h with hl
  · simp [Except.toOption] at h
  · match bs with
    | [] => simp at hlen
    | [_] => simp at hlen
    | [_, _] => simp at hlen
    | [_, _, _] => simp at hlen
    | v :: cdc :: ht :: hs :: rest =>
      dsimp only at h
      split_ifs at h with h1
      · simp [Except.toOption] at h
      all_goals exact ⟨v, _, rfl, Decidable.of_not_not h1⟩

/-- C9: `MarshalCBOR` on an undefined CID — in particular the zero value
`cid.Cid{}` — returns an error and never yields tag-42 output bytes. -/
theorem C9_marshal_undefined_cid :
    zeroCid.Defined = false ∧
    ∀ c : Cid, c.Defined = false →
      (∃ e, Cid.MarshalCBOR c = .error e) ∧ ∀ out, Cid.MarshalCBOR c ≠ .ok out := by
  refine ⟨by decide, fun c hc => ?_⟩
  unfold Cid.MarshalCBOR
  rw [if_pos (by rw [hc]; decide)]
  exact ⟨⟨_, rfl⟩, fun out h => Except.noConfusion h⟩

/-- Witness for C9 at the zero value `cid.Cid{}`. -/
theorem C9_marshal_undefined_cid_witness :
    (∃ e, Cid.MarshalCBOR zeroCid = .error e) ∧ ∀ out, Cid.MarshalCBOR zeroCid ≠ .ok out :=
  C9_marshal_undefined_cid.2 zeroCid (by decide)

/-- C4: CID tag-42 round trip.  For every valid 36-byte CID (one accepted
by the binary predicate), `MarshalCBOR` yields exactly the tag-42 item
`d8 2a 58 25 00` followed by the 36 binary bytes, and `UnmarshalCBOR` of
that output returns an equal CID. -/
theorem C4_cid_tag42_round_trip (c : Cid) (h : cidOk c.b = true) :
    Cid.MarshalCBOR c =
      .ok (byte 0xd8 :: byte 0x2a :: byte 0x58 :: byte 0x25 :: byte 0x00 :: c.b) ∧
    ∀ out, Cid.MarshalCBOR c = .ok out →
      ∃ c2, Cid.UnmarshalCBOR out = .ok c2 ∧ c2.Equals c = true := by
  obtain ⟨hnew, hlen⟩ := cidOk_elim h
  obtain ⟨v, rest, hshape, hv⟩ := cidOk_head h
  have hm : Cid.MarshalCBOR c =
      .ok (byte 0xd8 :: byte 0x2a :: byte 0x58 :: byte 0x25 :: byte 0x00 :: c.b) := by
    unfold Cid.MarshalCBOR
    rw [if_neg]
    simp only [Cid.Defined, hshape, List.getD, Decidable.not_not]
    simp [hv]
  refine ⟨hm, fun out hout => ?_⟩
  rw [hm] at hout
  obtain ⟨rfl⟩ := Except.ok.inj hout
  unfold Cid.UnmarshalCBOR cborParseTagBytes
  dsimp only
  rw [if_pos (by decide)]
  rw [show ((byte 0xd8).val % 32) = 24 from rfl]
  rw [readArg_24 (by decide) (by decide)]
  rw [Option.some_bind]
  dsimp only
  rw [if_pos (by decide)]
  rw [show ((byte 0x58).val % 32) = 24 from rfl]
  rw [readArg_24 (by decide) (by decide)]
  rw [Option.some_bind]
  dsimp only
  rw [show (37 : Nat) = (byte 0x00 :: c.b).length by simp [hlen]]
  rw [takeExact_all, Option.some_bind]
  dsimp only
  rw [if_neg (by decide), if_neg (by decide), hnew]
  exact ⟨⟨c.b⟩, rfl, by simp [Cid.Equals]⟩

theorem b32Digit_range (d : Nat) :
    (97 ≤ (b32Digit d).val ∧ (b32Digit d).val ≤ 122) ∨
      (50 ≤ (b32Digit d).val ∧ (b32Digit d).val ≤ 55) := by
  unfold b32Digit
  have h := Nat.mod_lt d (show 0 < 32 by norm_num)
  split_ifs with hlt
  · left
    rw [byte_val_of_lt (by omega)]
    omega
  · right
    rw [byte_val_of_lt (by omega)]
    omega

theorem b32Encode_chars (bs : List Byte) : ∀ ch ∈ b32Encode bs,
    (97 ≤ ch.val ∧ ch.val ≤ 122) ∨ (50 ≤ ch.val ∧ ch.val ≤ 55) := by
  induction bs using b32Encode.induct with
  | case1 =>
    intro ch hch
    simp [b32Encode] at hch
  | case2 b0 =>
    intro ch hch
    simp only [b32Encode, List.mem_cons, List.not_mem_nil, or_false] at hch
    rcases hch with rfl | rfl <;> exact b32Digit_range _
  | case3 b0 b1 =>
    intro ch hch
    simp only [b32Encode, List.mem_cons, List.not_mem_nil, or_false] at hch
    rcases hch with rfl | rfl | rfl | rfl <;> exact b32Digit_range _
  | case4 b0 b1 b2 =>
    intro ch hch
    simp only [b32Encode, List.mem_cons, List.not_mem_nil, or_false] at hch
    rcases hch with rfl | rfl | rfl | rfl | rfl <;> exact b32Digit_range _
  | case5 b0 b1 b2 b3 =>
    intro ch hch
    simp only [b32Encode, List.mem_cons, List.not_mem_nil, or_false] at hch
    rcases hch with rfl | rfl | rfl | rfl | rfl | rfl | rfl <;> exact b32Digit_range _
  | case6 b0 b1 b2 b3 b4 rest ih =>
    intro ch hch
    simp only [b32Encode, List.cons_append, List.nil_append, List.mem_cons] at hch
    rcases hch with rfl | rfl | rfl | rfl | rfl | rfl | rfl | rfl | hch
    · exact b32Digit_range _
    · exact b32Digit_range _
    · exact b32Digit_range _
    · exact b32Digit_range _
    · exact b32Digit_range _
    · exact b32Digit_range _
    · exact b32Digit_range _
    · exact b32Digit_range _
    · exact ih ch hch

/-- The repository's CID test fixture in binary form
(`01551220adee2e8f…ead87`). -/
def cidFixtureBytes : List Byte :=
  [byte 0x01, byte 0x55, byte 0x12, byte 0x20, byte 0xad, byte 0xee, byte 0x2e, byte 0x8f, byte 0xb5, byte 0x45, byte 0x9c, byte 0x9b, byte 0xcf, byte 0x07, byte 0xd7, byte 0xd7, byte 0x8d, byte 0x11, byte 0x83, byte 0xbf, byte 0x40, byte 0xa7, byte 0xf6, byte 0x0f, byte 0x57, byte 0xa5, byte 0x4a, byte 0x19, byte 0x19, byte 0x48, byte 0x01, byte 0xc9, byte 0xa2, byte 0x7e, byte 0xad, byte 0x87]

/-- The repository's CID test fixture in string form. -/
def cidFixtureStr : List Byte :=
  strBytes "bafkreifn5yxi7nkftsn46b6x26grda57ict7md2xuvfbsgkiahe2e7vnq4"

set_option maxRecDepth 40000 in
/-- C3 counterexample: the claim says base32 input is treated
case-insensitively, but `NewCidFromString` rejects the uppercase form of a
CID string it accepts in lowercase (Go's `base32.NewEncoding` decode map
contains only the exact lowercase alphabet bytes). -/
theorem C3_counterexample :
    (NewCidFromString cidFixtureStr).toOption.isSome = true ∧
    (NewCidFromString
      (strBytes "bAFKREIFN5YXI7NKFTSN46B6X26GRDA57ICT7MD2XUVFBSGKIAHE2E7VNQ4")).toOption
      = none := by
  exact ⟨by decide, by decide⟩

/-- C3 (amended): `NewCidFromString` succeeds exactly on byte strings of 59
characters that begin with 'b' and whose remaining 58 characters decode
under the lowercase RFC 4648 no-padding base32 alphabet — input is
case-sensitive, so uppercase characters are rejected — to bytes satisfying
the binary CID predicate; and `String` emits only 'b' and characters of
the lowercase alphabet. -/
theorem C3_cid_string_parsing :
    (∀ s : List Byte,
      (∃ c, NewCidFromString s = .ok c) ↔
        (s.length = CidStrLength ∧ ∃ c0 rest, s = c0 :: rest ∧ c0.val = 98 ∧
          ∃ bs, b32Decode rest = some bs ∧ cidOk bs = true)) ∧
    (∀ (c : Cid), ∀ ch ∈ Cid.StringOf c,
      ch.val = 98 ∨ (97 ≤ ch.val ∧ ch.val ≤ 122) ∨ (50 ≤ ch.val ∧ ch.val ≤ 55)) := by
  constructor
  · intro s
    constructor
    · rintro ⟨c, hc⟩
      unfold NewCidFromString at hc
      by_cases hlen : s.length ≠ CidStrLength
      · rw [if_pos hlen] at hc
        exact absurd hc (by simp)
      rw [if_neg hlen] at hc
      match s, hlen, hc with
      | c0 :: rest, hlen, hc =>
        dsimp only at hc
        by_cases hb : c0.val ≠ 98
        · rw [if_pos hb] at hc
          exact absurd hc (by simp)
        rw [if_neg hb] at hc
        match hdec : b32Decode rest, hc with
        | some bs, hc =>
          dsimp only at hc
          refine ⟨Decidable.of_not_not hlen, c0, rest, rfl, Decidable.of_not_not hb,
            bs, hdec, ?_⟩
          unfold cidOk
          rw [hc]
          rfl
        | none, hc =>
          exact absurd hc (by simp)
    · rintro ⟨hlen, c0, rest, rfl, hb, bs, hdec, hok⟩
      unfold NewCidFromString
      rw [if_neg (by simp [hlen])]
      dsimp only
      rw [if_neg (by simp [hb]), hdec]
      exact ⟨⟨bs⟩, (cidOk_elim hok).1⟩
  · intro c ch hch
    unfold Cid.StringOf at hch
    rw [List.mem_cons] at hch
    rcases hch with rfl | hch
    · left
      rfl
    · right
      exact b32Encode_chars c.b ch hch

set_option maxRecDepth 40000 in
/-- Witness for C3 at the repository's fixture string and its parsed CID. -/
theorem C3_cid_string_parsing_witness :
    (cidFixtureStr.length = CidStrLength ∧ ∃ c0 rest, cidFixtureStr = c0 :: rest ∧
      c0.val = 98 ∧ ∃ bs, b32Decode rest = some bs ∧ cidOk bs = true) ∧
    ((byte 98).val = 98 ∨ (97 ≤ (byte 98).val ∧ (byte 98).val ≤ 122) ∨
      (50 ≤ (byte 98).val ∧ (byte 98).val ≤ 55)) :=
  ⟨(C3_cid_string_parsing.1 cidFixtureStr).mp ⟨⟨cidFixtureBytes⟩, rfl⟩,
   C3_cid_string_parsing.2 ⟨cidFixtureBytes⟩ (byte 98) (by decide)⟩

set_option maxRecDepth 40000 in
/-- Witness for C4 at the repository's binary CID fixture. -/
theorem C4_cid_tag42_round_trip_witness :
    Cid.MarshalCBOR ⟨cidFixtureBytes⟩ =
      .ok (byte 0xd8 :: byte 0x2a :: byte 0x58 :: byte 0x25 :: byte 0x00 ::
        (⟨cidFixtureBytes⟩ : Cid).b) ∧
    ∀ out, Cid.MarshalCBOR ⟨cidFixtureBytes⟩ = .ok out →
      ∃ c2, Cid.UnmarshalCBOR out = .ok c2 ∧ c2.Equals ⟨cidFixtureBytes⟩ = true :=
  C4_cid_tag42_round_trip ⟨cidFixtureBytes⟩ (by decide)

/-! ## SHA-256 (the `crypto/sha256` function used by `HashBytes`,
implemented from FIPS 180-4) -/

/-- Right rotation of a 32-bit word. -/
def rotr32 (n x : Nat) : Nat := x / 2 ^ n + x % 2 ^ n * 2 ^ (32 - n)

def shs0 (x : Nat) : Nat := (rotr32 7 x) ^^^ (rotr32 18 x) ^^^ (x / 2 ^ 3)
def shs1 (x : Nat) : Nat := (rotr32 17 x) ^^^ (rotr32 19 x) ^^^ (x / 2 ^ 10)
def shb0 (x : Nat) : Nat := (rotr32 2 x) ^^^ (rotr32 13 x) ^^^ (rotr32 22 x)
def shb1 (x : Nat) : Nat := (rotr32 6 x) ^^^ (rotr32 11 x) ^^^ (rotr32 25 x)
def chf (e f g : Nat) : Nat := (e &&& f) ^^^ ((e ^^^ (2 ^ 32 - 1)) &&& g)
def majf (a b c : Nat) : Nat := (a &&& b) ^^^ (a &&& c) ^^^ (b &&& c)

/-- The 64 SHA-256 round constants (FIPS 180-4 section 4.2.2, written in
decimal). -/
def sha256K : List Nat :=
  [1116352408, 1899447441, 3049323471, 3921009573, 961987163, 1508970993,
   2453635748, 2870763221, 3624381080, 310598401, 607225278, 1426881987,
   1925078388, 2162078206, 2614888103, 3248222580, 3835390401, 4022224774,
   264347078, 604807628, 770255983, 1249150122, 1555081692, 1996064986,
   2554220882, 2821834349, 2952996808, 3210313671, 3336571891, 3584528711,
   113926993, 338241895, 666307205, 773529912, 1294757372, 1396182291,
   1695183700, 1986661051, 2177026350, 2456956037, 2730485921, 2820302411,
   3259730800, 3345764771, 3516065817, 3600352804, 4094571909, 275423344,
   430227734, 506948616, 659060556, 883997877, 958139571, 1322822218,
   1537002063, 1747873779, 1955562222, 2024104815, 2227730452, 2361852424,
   2428436474, 2756734187, 3204031479, 3329325298]

/-- The eight working variables of the compression function. -/
structure H8 where
  a : Nat
  b : Nat
  c : Nat
  d : Nat
  e : Nat
  f : Nat
  g : Nat
  h : Nat

def sha256Init : H8 :=
  ⟨1779033703, 3144134277, 1013904242, 2773480762, 1359893119, 2600822924, 528734635, 1541459225⟩

def sha256Round (st : H8) (kw : Nat) : H8 :=
  let t1 := (st.h + shb1 st.e + chf st.e st.f st.g + kw) % 2 ^ 32
  let t2 := (shb0 st.a + majf st.a st.b st.c) % 2 ^ 32
  ⟨(t1 + t2) % 2 ^ 32, st.a, st.b, st.c, (st.d + t1) % 2 ^ 32, st.e, st.f, st.g⟩

/-- Extend the (reversed, newest-first) message schedule by `n` words. -/
def sha256ExtendRev : Nat → List Nat → List Nat
  | 0, ws => ws
  | n + 1, ws =>
    sha256ExtendRev n
      ((shs1 (ws.getD 1 0) + ws.getD 6 0 + shs0 (ws.getD 14 0) + ws.getD 15 0) % 2 ^ 32 :: ws)

/-- Big-endian 4-byte groups to 32-bit words. -/
def toWords : List Byte → List Nat
  | b1 :: b2 :: b3 :: b4 :: r =>
    (2 ^ 24 * b1.val + 2 ^ 16 * b2.val + 256 * b3.val + b4.val) :: toWords r
  | _ => []

def sha256Compress (st : H8) (block : List Byte) : H8 :=
  let w := (sha256ExtendRev 48 (toWords block).reverse).reverse
  let fin := (sha256K.zip w).foldl (fun s kw => sha256Round s (kw.1 + kw.2)) st
  ⟨(st.a + fin.a) % 2 ^ 32, (st.b + fin.b) % 2 ^ 32, (st.c + fin.c) % 2 ^ 32,
   (st.d + fin.d) % 2 ^ 32, (st.e + fin.e) % 2 ^ 32, (st.f + fin.f) % 2 ^ 32,
   (st.g + fin.g) % 2 ^ 32, (st.h + fin.h) % 2 ^ 32⟩

/-- Merkle–Damgård padding: `0x80`, zeros to 56 mod 64, 8-byte bit length. -/
def sha256Pad (msg : List Byte) : List Byte :=
  msg ++ byte 0x80 :: List.replicate ((119 - msg.length % 64) % 64) (byte 0) ++
    be8 (8 * msg.length)

def sha256BlocksGo : Nat → H8 → List Byte → H8
  | 0, st, _ => st
  | n + 1, st, bs => sha256BlocksGo n (sha256Compress st (bs.take 64)) (bs.drop 64)

/-- `sha256.Sum256`. -/
def sha256 (msg : List Byte) : List Byte :=
  let padded := sha256Pad msg
  let st := sha256BlocksGo (padded.length / 64) sha256Init padded
  be4 st.a ++ be4 st.b ++ be4 st.c ++ be4 st.d ++ be4 st.e ++ be4 st.f ++
    be4 st.g ++ be4 st.h

/-- `HashBytes` creates a raw SHA-256 CID by hashing the provided bytes;
it fills the header directly without revalidation ("quick version of
`NewCidFromInfo`"). -/
def HashBytes (bs : List Byte) : Cid :=
  ⟨byte CidVersion :: byte CodecRaw :: byte HashTypeSha256 :: byte HashSize :: sha256 bs⟩

/-- `EmptyCid` is the source's raw SHA-256 CID of the empty byte string
(`01551220e3b0c442…b855`). -/
def EmptyCid : Cid :=
  ⟨[byte 0x01, byte 0x55, byte 0x12, byte 0x20, byte 0xe3, byte 0xb0, byte 0xc4, byte 0x42, byte 0x98, byte 0xfc, byte 0x1c, byte 0x14, byte 0x9a, byte 0xfb, byte 0xf4, byte 0xc8, byte 0x99, byte 0x6f, byte 0xb9, byte 0x24, byte 0x27, byte 0xae, byte 0x41, byte 0xe4, byte 0x64, byte 0x9b, byte 0x93, byte 0x4c, byte 0xa4, byte 0x95, byte 0x99, byte 0x1b, byte 0x78, byte 0x52, byte 0xb8, byte 0x55]⟩

set_option maxRecDepth 100000 in
/-- Sanity check of the SHA-256 model against the source's constant:
hashing the empty byte string yields exactly `EmptyCid`. -/
theorem HashBytes_empty : HashBytes [] = EmptyCid := by decide

theorem sha256_length (msg : List Byte) : (sha256 msg).length = 32 := by
  unfold sha256
  simp [be4]

/-- C10: the unvalidated fast-path constructor `HashBytes` always returns
a CID with codec raw (0x55), hash type SHA-256 (0x12) and digest equal to
the SHA-256 hash of the input, and revalidating its binary form with
`NewCidFromBytes` succeeds with an equal CID. -/
theorem C10_hashbytes_invariant (bs : List Byte) :
    (HashBytes bs).CodecOf = CodecRaw ∧
    (HashBytes bs).HashTypeOf = HashTypeSha256 ∧
    (HashBytes bs).Digest = sha256 bs ∧
    ∃ c, NewCidFromBytes (HashBytes bs).Bytes = .ok c ∧ c.Equals (HashBytes bs) = true := by
  refine ⟨rfl, rfl, rfl, ?_⟩
  unfold NewCidFromBytes Cid.Bytes HashBytes
  dsimp only
  rw [if_neg (by simp [sha256_length, CidBinaryLength])]
  rw [if_neg (by decide), if_neg (by decide), if_neg (by decide), if_neg (by decide)]
  exact ⟨_, rfl, by simp [Cid.Equals, HashBytes]⟩

/-! ## MASL documents (translated from masl/masl.go) -/

/-- `strings.HasPrefix`, on the character lists of the strings (for valid
UTF-8 this coincides with byte-prefix). -/
def goHasPrefix (s pre : String) : Bool := pre.toList.isPrefixOf s.toList

/-- `Icon` represents an icon entry in a Web App Manifest. -/
structure Icon where
  Src : String := ""
  Sizes : String := ""
  Purpose : String := ""

/-- `Screenshot` represents a screenshot entry in a Web App Manifest. -/
structure Screenshot where
  Src : String := ""
  Sizes : String := ""
  Label : String := ""
  FormFactor : String := ""
  Platform : String := ""

/-- `Resource` represents metadata for a single resource in a MASL
document; the Go zero value leaves every string empty, every slice nil and
`Src` the zero CID. -/
structure Resource where
  Src : Cid := zeroCid
  Name : String := ""
  ContentType : String := ""
  ContentDisposition : String := ""
  ContentEncoding : String := ""
  ContentLanguage : String := ""
  ContentSecurityPolicy : String := ""
  Link : String := ""
  PermissionsPolicy : String := ""
  ReferrerPolicy : String := ""
  ServiceWorkerAllowed : String := ""
  Sourcemap : String := ""
  SpeculationRules : String := ""
  SupportsLoadingMode : String := ""
  XContentTypeOptions : String := ""
  BackgroundColor : String := ""
  Categories : List String := []
  Description : String := ""
  Icons : List Icon := []
  ID : String := ""
  Screenshots : List Screenshot := []
  ShortName : String := ""
  ThemeColor : String := ""
  Attributes : List (String × Val) := []

/-- `Document` embeds `Resource`; `Resources` models the
`map[string]*Resource` (`none` is the nil map: single mode). -/
structure Document extends Resource where
  Resources : Option (List (String × Resource)) := none
  Version : Int := 0
  Roots : List Cid := []
  /-- The source names this field `Type`, which Lean reserves. -/
  Type' : String := ""
  Prev : Cid := zeroCid

/-- `IsBundle` returns true if this document operates in bundle mode
(non-nil `Resources` map). -/
def Document.IsBundle (d : Document) : Bool := d.Resources.isSome

/-- `_, exists := d.Resources[k]` — key membership in the resources map
(absent on the nil map). -/
def Document.resourcesHas (d : Document) (k : String) : Bool :=
  match d.Resources with
  | some m => m.any fun p => p.1 = k
  | none => false

/-- `validateResourceReferences`: non-empty `Sourcemap` and
`SpeculationRules` of the given resource must be keys of the map. -/
def Document.validateResourceReferences (d : Document) (r : Resource) : Bool :=
  (r.Sourcemap = "" || d.resourcesHas r.Sourcemap) &&
    (r.SpeculationRules = "" || d.resourcesHas r.SpeculationRules)

/-- `validateAppManifestReferences`: non-empty icon and screenshot `src`
of the document-level resource must be keys of the map. -/
def Document.validateAppManifestReferences (d : Document) : Bool :=
  (d.Icons.all fun icon => icon.Src = "" || d.resourcesHas icon.Src) &&
    (d.Screenshots.all fun sc => sc.Src = "" || d.resourcesHas sc.Src)

/-- `validateBundle`: every map entry has a non-empty '/'-prefixed path, a
defined `Src`, and valid `Sourcemap`/`SpeculationRules` references; then
the document-level app manifest references are checked. -/
def Document.validateBundle (d : Document) : Bool :=
  (match d.Resources with
   | some m =>
     m.all fun p =>
       (!(p.1 = "") && goHasPrefix p.1 "/") && p.2.Src.Defined &&
         d.validateResourceReferences p.2
   | none => true) &&
    d.validateAppManifestReferences

/-- `validateSingle`: document-level icons and screenshots must not carry
a `src`. -/
def Document.validateSingle (d : Document) : Bool :=
  (d.Icons.all fun icon => icon.Src = "") &&
    (d.Screenshots.all fun sc => sc.Src = "")

/-- `Valid` validates the MASL document according to the MASL
specification. -/
def Document.Valid (d : Document) : Bool :=
  (d.Version = 0 || d.Version = 1) &&
    (d.Type' = "" || d.Type' = "ing.dasl.masl") &&
    (if d.IsBundle then d.validateBundle else d.validateSingle)

/-- The claim's reading of the validity predicate, following its words: in
bundle mode, EVERY resource's (document-level and map entries alike)
non-empty `Sourcemap`, `SpeculationRules`, icon `src` and screenshot `src`
must reference an existing entry of the map. -/
def maslClaimPredicate (d : Document) : Prop :=
  (d.Version = 0 ∨ d.Version = 1) ∧
  (d.Type' = "" ∨ d.Type' = "ing.dasl.masl") ∧
  (match d.Resources with
   | some m =>
     (∀ p ∈ m, ¬p.1 = "" ∧ goHasPrefix p.1 "/" = true ∧ p.2.Src.Defined = true) ∧
     (∀ r ∈ d.toResource :: m.map Prod.snd,
       (¬r.Sourcemap = "" → d.resourcesHas r.Sourcemap = true) ∧
       (¬r.SpeculationRules = "" → d.resourcesHas r.SpeculationRules = true) ∧
       (∀ icon ∈ r.Icons, ¬icon.Src = "" → d.resourcesHas icon.Src = true) ∧
       (∀ sc ∈ r.Screenshots, ¬sc.Src = "" → d.resourcesHas sc.Src = true))
   | none =>
     (∀ icon ∈ d.Icons, icon.Src = "") ∧ (∀ sc ∈ d.Screenshots, sc.Src = ""))

/-- C6 counterexample: `Valid()` does not check the claimed reference
conditions at the claimed scopes.  A bundle document whose document-level
`Sourcemap` names a missing path is `Valid()` even though the claim's
predicate rejects it (the code only checks `Sourcemap`/`SpeculationRules`
of map entries, and only icons/screenshots of the document level). -/
theorem C6_counterexample :
    ∃ d : Document, d.Valid = true ∧ ¬maslClaimPredicate d := by
  refine ⟨{ Sourcemap := "/missing", Resources := some [] }, by decide, ?_⟩
  intro h
  obtain ⟨-, -, hmain⟩ := h
  obtain ⟨-, href⟩ := hmain
  have := (href _ (List.mem_cons_self _ _)).1 (by decide)
  exact absurd this (by decide)

/-- C6 (amended): `Document.Valid()` returns true iff `Version ∈ {0,1}`,
`Type ∈ {"", "ing.dasl.masl"}`, and — in bundle mode — every map entry has
a non-empty path beginning with '/', a defined `Src` CID, and non-empty
`Sourcemap`/`SpeculationRules` naming existing map entries, while the
DOCUMENT-LEVEL icons and screenshots with non-empty `src` name existing
map entries (icon/screenshot references of map entries and the
document-level `Sourcemap`/`SpeculationRules` are not checked); in single
mode no document-level icon or screenshot carries a non-empty `src`. -/
theorem C6_masl_valid_iff (d : Document) :
    d.Valid = true ↔
      ((d.Version = 0 ∨ d.Version = 1) ∧
       (d.Type' = "" ∨ d.Type' = "ing.dasl.masl") ∧
       (match d.Resources with
        | some m =>
          (∀ p ∈ m, (¬p.1 = "" ∧ goHasPrefix p.1 "/" = true ∧ p.2.Src.Defined = true) ∧
            (¬p.2.Sourcemap = "" → d.resourcesHas p.2.Sourcemap = true) ∧
            (¬p.2.SpeculationRules = "" → d.resourcesHas p.2.SpeculationRules = true)) ∧
          (∀ icon ∈ d.Icons, ¬icon.Src = "" → d.resourcesHas icon.Src = true) ∧
          (∀ sc ∈ d.Screenshots, ¬sc.Src = "" → d.resourcesHas sc.Src = true)
        | none =>
          (∀ icon ∈ d.Icons, icon.Src = "") ∧
          (∀ sc ∈ d.Screenshots, sc.Src = ""))) := by
  unfold Document.Valid Document.IsBundle Document.validateBundle Document.validateSingle
    Document.validateAppManifestReferences Document.validateResourceReferences
  cases hres : d.Resources with
  | none =>
    rw [show (none : Option (List (String × Resource))).isSome = false from rfl,
      if_neg (by simp)]
    dsimp only
    simp only [Bool.and_eq_true, Bool.or_eq_true, decide_eq_true_eq, List.all_eq_true]
    tauto
  | some m =>
    rw [show (some m).isSome = true from rfl, if_pos rfl]
    dsimp only
    simp only [Bool.and_eq_true, Bool.or_eq_true, decide_eq_true_eq, List.all_eq_true,
      Bool.not_eq_true', decide_eq_false_iff_not]
    constructor
    · rintro ⟨⟨hver, htype⟩, hmap, hicons, hscs⟩
      refine ⟨hver, htype, fun p hp => ?_, fun icon hi => ?_, fun sc hs => ?_⟩
      · have h := hmap p hp
        tauto
      · have h := hicons icon hi
        tauto
      · have h := hscs sc hs
        tauto
    · rintro ⟨hver, htype, hmap, hicons, hscs⟩
      refine ⟨⟨hver, htype⟩, fun p hp => ?_, fun icon hi => ?_, fun sc hs => ?_⟩
      · have h := hmap p hp
        tauto
      · have h := hicons icon hi
        tauto
      · have h := hscs sc hs
        tauto

/-! ## RASL URLs (translated from rasl/rasl.go; the `net/url` parser and
the package's `parseHost` helper are not part of the repository snapshot,
so Parse is modelled over their outcomes) -/

/-- Modelled from the spec: the fields of `net/url.URL` that `rasl.Parse`
reads (`User` is `nil` or present, `Fragment`, `Host`, `Path`,
`RawQuery`). -/
structure GoURL where
  Scheme : String := ""
  User : Option String := none
  Host : String := ""
  Path : String := ""
  RawQuery : String := ""
  Fragment : String := ""

/-- `URL` stores all the information about a RASL URL. -/
structure URL where
  Cid : Cid
  Hints : List String
  Path : String

/-- `Parse` parses out the information from a RASL URL.  The outcome of
`url.Parse` is passed as `parsed`, the behaviour of `url.ParseQuery` as
`pq` (an association of keys to value lists), and the success of the
`parseHost` hint validator as `parseHostOk`; everything after those calls
is translated from the source. -/
def Parse (parseHostOk : String → Bool) (rawUrl : String)
    (parsed : Except String GoURL)
    (pq : String → Except String (List (String × List String))) : Except String URL :=
  if ¬goHasPrefix rawUrl "rasl://" then .error "invalid scheme"
  else
    match parsed with
    | .error e => .error e
    | .ok u =>
      if u.User.isSome then .error "user info not allowed"
      else if ¬u.Fragment = "" then .error "fragment not allowed"
      else
        match NewCidFromString (strBytes u.Host) with
        | .error e => .error e
        | .ok c =>
          match pq u.RawQuery with
          | .error e => .error e
          | .ok q =>
            match q.find? fun p => p.1 = "hint" with
            | none => .ok ⟨c, [], u.Path⟩
            | some p =>
              .ok ⟨c, p.2.filter fun hint => ¬hint = "" ∧ parseHostOk hint, u.Path⟩

/-- C7: `rasl.Parse` errors on every input whose parsed URL carries
user-info or a non-empty fragment; and once the scheme, CID host and
query parse, it succeeds for EVERY hint validator and every hint list,
silently dropping exactly the hints that are empty or fail host
validation — an invalid hint value never causes `Parse` to fail. -/
theorem C7_rasl_parse (parseHostOk : String → Bool) (rawUrl : String) (u : GoURL)
    (pq : String → Except String (List (String × List String))) :
    (u.User.isSome = true →
      ∀ r, Parse parseHostOk rawUrl (.ok u) pq ≠ .ok r) ∧
    (¬u.Fragment = "" →
      ∀ r, Parse parseHostOk rawUrl (.ok u) pq ≠ .ok r) ∧
    (goHasPrefix rawUrl "rasl://" = true → u.User = none → u.Fragment = "" →
      ∀ c, NewCidFromString (strBytes u.Host) = .ok c →
      ∀ q, pq u.RawQuery = .ok q →
      ((q.find? fun p => p.1 = "hint") = none →
        Parse parseHostOk rawUrl (.ok u) pq = .ok ⟨c, [], u.Path⟩) ∧
      (∀ p, (q.find? fun p => p.1 = "hint") = some p →
        Parse parseHostOk rawUrl (.ok u) pq =
          .ok ⟨c, p.2.filter fun hint => ¬hint = "" ∧ parseHostOk hint, u.Path⟩)) := by
  refine ⟨?_, ?_, ?_⟩
  · intro huser r
    unfold Parse
    by_cases hpre : goHasPrefix rawUrl "rasl://" = true
    · rw [if_neg (by simp [hpre])]
      dsimp only
      rw [if_pos huser]
      exact fun h => Except.noConfusion h
    · rw [if_pos (by simpa using hpre)]
      exact fun h => Except.noConfusion h
  · intro hfrag r
    unfold Parse
    by_cases hpre : goHasPrefix rawUrl "rasl://" = true
    · rw [if_neg (by simp [hpre])]
      dsimp only
      by_cases huser : u.User.isSome = true
      · rw [if_pos huser]
        exact fun h => Except.noConfusion h
      · rw [if_neg huser, if_pos hfrag]
        exact fun h => Except.noConfusion h
    · rw [if_pos (by simpa using hpre)]
      exact fun h => Except.noConfusion h
  · intro hpre huser hfrag c hc q hq
    unfold Parse
    rw [if_neg (by simp [hpre])]
    dsimp only
    rw [if_neg (by simp [huser]), if_neg (by simp [hfrag]), hc]
    dsimp only
    rw [hq]
    dsimp only
    constructor
    · intro hfind
      rw [hfind]
    · intro p hfind
      rw [hfind]

set_option maxRecDepth 40000 in
/-- Witness for C7 at concrete inputs: a URL with user-info is rejected,
and a URL with hints `["", "bad host", "good.com"]` under a validator
accepting only `"good.com"` succeeds with exactly the invalid hints
dropped. -/
theorem C7_rasl_parse_witness :
    (∀ r, Parse (fun h => h = "good.com") "rasl://x"
      (.ok { User := some "alice" }) (fun _ => .ok []) ≠ .ok r) ∧
    Parse (fun h => h = "good.com")
      "rasl://bafkreifn5yxi7nkftsn46b6x26grda57ict7md2xuvfbsgkiahe2e7vnq4/"
      (.ok { Scheme := "rasl",
             Host := "bafkreifn5yxi7nkftsn46b6x26grda57ict7md2xuvfbsgkiahe2e7vnq4",
             Path := "/", RawQuery := "hint=&hint=bad+host&hint=good.com" })
      (fun _ => .ok [("hint", ["", "bad host", "good.com"])]) =
      .ok ⟨⟨cidFixtureBytes⟩, ["good.com"], "/"⟩ := by
  constructor
  · exact (C7_rasl_parse (fun h => h = "good.com") "rasl://x"
      { User := some "alice" } (fun _ => .ok [])).1 rfl
  · have h := ((C7_rasl_parse (fun h => h = "good.com")
      "rasl://bafkreifn5yxi7nkftsn46b6x26grda57ict7md2xuvfbsgkiahe2e7vnq4/"
      { Scheme := "rasl",
        Host := "bafkreifn5yxi7nkftsn46b6x26grda57ict7md2xuvfbsgkiahe2e7vnq4",
        Path := "/", RawQuery := "hint=&hint=bad+host&hint=good.com" }
      (fun _ => .ok [("hint", ["", "bad host", "good.com"])])).2.2
      (by decide) rfl rfl ⟨cidFixtureBytes⟩ rfl
      [("hint", ["", "bad host", "good.com"])] rfl).2
      ("hint", ["", "bad host", "good.com"]) rfl
    exact h
